import Mathlib

/-!
Verification development for the chibi code-exploration agent.

The definitions below are a shallow embedding of the TypeScript sources:

* `src/context/manager.ts`   — ContextManager (messages, compression, recall)
* `src/context/types.ts`     — data model and compression thresholds
* `src/context/storage.ts`   — L0 disk layer, modelled as an in-memory map
* `src/tools/registry.ts`    — ToolRegistry
* `src/agent/investigator.ts`— decision parsing, stuck detection,
                               hallucination scrubbing, run control flow
* `src/agent/orchestrator.ts`— two-phase pipeline result handling

Machine integers are modelled as `Nat`/`Int` (JS numbers stay far below
2^53 here, so arithmetic is exact).  The token estimator wraps the external
tiktoken library, so it is kept as an explicit function parameter
`est : String → Nat`.  JS regular expressions are translated into
executable character-list matchers; the ASCII fragment of the `\s` class
is used (the repository only feeds ASCII/BMP text through these paths).
-/

namespace Chibi

/-! ### Generic character/list helpers -/

/-- Whitespace characters of the JS `\s` class (ASCII fragment:
space, tab, newline, carriage return, vertical tab, form feed). -/
def jsWS (c : Char) : Bool :=
  c == ' ' || c == '\t' || c == '\n' || c == '\r' ||
  c == Char.ofNat 11 || c == Char.ofNat 12

/-- Word characters of the JS `\w` class: ASCII letters, digits, underscore. -/
def isWordChar (c : Char) : Bool :=
  (c.isAlpha && c.toNat < 128) || c.isDigit || c == '_'

/-- Test whether `p` is an initial segment of `l`. -/
def isPre : List Char → List Char → Bool
  | [], _ => true
  | _ :: _, [] => false
  | p :: ps, c :: cs => p == c && isPre ps cs

/-- Test whether the pattern occurs somewhere in the text
(JS `String.prototype.includes`). -/
def containsSubAux (pat : List Char) : List Char → Bool
  | [] => isPre pat []
  | c :: cs => isPre pat (c :: cs) || containsSubAux pat cs

/-- JS `haystack.includes(needle)`. -/
def containsSub (s pat : String) : Bool := containsSubAux pat.data s.data

/-- JS `String.prototype.trim` (ASCII whitespace fragment). -/
def jsTrim (cs : List Char) : List Char :=
  ((cs.dropWhile jsWS).reverse.dropWhile jsWS).reverse

/-- Count occurrences of a character (used for `content.match(/\n/g)`). -/
def countChar (c : Char) (cs : List Char) : Nat :=
  cs.countP (· == c)

/-! ### Context data model (`src/context/types.ts`) -/

/-- Message role (`'user' | 'assistant'`). -/
inductive Role where
  | user
  | assistant
  deriving DecidableEq, Repr

/-- Message metadata (`ChatMessage['metadata']`). -/
structure MsgMeta where
  toolName : Option String := none
  source : Option String := none
  compressible : Option Bool := none
  deriving DecidableEq, Repr

/-- A chat message (`ChatMessage` in `src/context/types.ts`).  The JS
`timestamp` (`Date.now()`) is kept as a field but the model always
creates messages with timestamp 0; no claim depends on wall-clock time. -/
structure ChatMessage where
  key : String
  role : Role
  content : String
  tokens : Nat
  compressed : Bool
  originalTokens : Option Nat := none
  timestamp : Nat := 0
  metadata : Option MsgMeta := none
  deriving DecidableEq, Repr

/-- What `ContextStorage.saveMessageContent` writes to `messages/<key>.json`. -/
structure StoredMessage where
  key : String
  role : Role
  content : String
  tokens : Nat
  timestamp : Nat
  metadata : Option MsgMeta
  deriving DecidableEq, Repr

/-- Session state (`Session` in `src/context/types.ts`).  The
`storage.messages` map (key → file path) together with the on-disk files
is modelled as one in-memory association list from key to the stored
original; entries are prepended, lookup takes the first hit (JS `Map.set`
overwrite semantics).  The budget is derived on demand rather than cached:
every public operation of the manager recomputes the budget before it can
be observed, so the cached and the derived value agree at all observable
points.  `nextId` models the `nanoid(8)` fresh-key source. -/
structure Session where
  id : String
  query : String
  workingDir : String
  messages : List ChatMessage
  totalTokens : Int
  storageMessages : List (String × StoredMessage)
  nextId : Nat
  systemPromptTokens : Nat
  deriving DecidableEq, Repr

/-- Budget configuration (`BudgetConfig`). -/
structure BudgetConfig where
  contextWindow : Nat
  reservedForSynthesis : Nat
  reservedForRecalls : Nat
  reservedForNextSteps : Nat
  deriving DecidableEq, Repr

/-- `DEFAULT_BUDGET_CONFIG` (manager.ts:33-38; the Doubao context window
is `256 * 1024`). -/
def DEFAULT_BUDGET_CONFIG : BudgetConfig :=
  { contextWindow := 256 * 1024, reservedForSynthesis := 30000,
    reservedForRecalls := 20000, reservedForNextSteps := 15000 }

/-- `COMPRESSION_THRESHOLDS.minTokensToCompress`. -/
def minTokensToCompress : Nat := 200

/-- `COMPRESSION_THRESHOLDS.protectedRecentMessages`. -/
def protectedRecentMessages : Nat := 4

/-- Truthiness of an optional JS string (`undefined` and `""` are falsy). -/
def optTruthy : Option String → Bool
  | none => false
  | some s => !s.isEmpty

/-- Lookup in the storage association list (latest `Map.set` wins; new
entries are prepended, so the first hit is the latest). -/
def lookupStored : List (String × StoredMessage) → String → Option StoredMessage
  | [], _ => none
  | (k, v) :: rest, key => if k == key then some v else lookupStored rest key

/-- Find the first message with the given key
(JS `messages.find(m => m.key === key)`). -/
def findByKey : List ChatMessage → String → Option ChatMessage
  | [], _ => none
  | m :: rest, key => if m.key == key then some m else findByKey rest key

/-- Replace the first message with the given key (the JS code mutates the
object returned by `find`). -/
def updateFirst : List ChatMessage → String → ChatMessage → List ChatMessage
  | [], _, _ => []
  | m :: rest, key, v => if m.key == key then v :: rest else m :: updateFirst rest key v

/-! ### Compressibility and budget (`src/context/manager.ts`) -/

/-- `ContextManager.isCompressible` (manager.ts:492-507).  Note that the
"too short" check precedes the `toolName` check, so the final
`tokens >= minTokensToCompress` line is always reached with the bound
already established. -/
def isCompressible (m : ChatMessage) : Bool :=
  if m.compressed then false
  else if m.tokens < minTokensToCompress then false
  else if m.metadata.bind (·.compressible) == some false then false
  else if optTruthy (m.metadata.bind (·.toolName)) then true
  else decide (minTokensToCompress ≤ m.tokens)

/-- Budget `used` field: `systemPromptTokens + messages` (manager.ts:463).
The budget is derived on demand; see the `Session` docstring. -/
def budgetUsed (s : Session) : Int :=
  (s.systemPromptTokens : Int) + s.totalTokens

/-- `ContextManager.needsCompression`: `used / total >= 0.8`
(manager.ts:240-245).  The JS comparison divides IEEE doubles; the model
uses the exact rational comparison `5 * used >= 4 * total`.  The two can
differ only when `used / total` sits within one double ulp of 0.8, a
boundary no claim depends on. -/
def needsCompression (cfg : BudgetConfig) (s : Session) : Bool :=
  decide (5 * budgetUsed s ≥ 4 * (cfg.contextWindow : Int))

/-- `ContextManager.calculateTokensToFree`:
`max(0, ceil(used - 0.6 * total))` (manager.ts:481-487), with
`ceil(used - 0.6 * total) = used - floor(3 * total / 5)` for integer
inputs (same float-boundary caveat as `needsCompression`). -/
def calculateTokensToFree (cfg : BudgetConfig) (s : Session) : Int :=
  max 0 (budgetUsed s - (3 * (cfg.contextWindow : Int)) / 5)

/-! ### Compressed placeholder content (`createCompressedContent`) -/

/-- Keywords of the symbol-extraction regex
`/(?:func|function|def|class|interface|type)\s+(\w+)/g`, in the
alternation order the regex engine tries them. -/
def symbolKeywords : List (List Char) :=
  ["func".data, "function".data, "def".data, "class".data, "interface".data, "type".data]

/-- Try to match one keyword alternative followed by `\s+(\w+)` at the head
of `cs`; returns the captured word and the rest of the input after the
whole match. -/
def symMatchKw (kw : List Char) (cs : List Char) : Option (String × List Char) :=
  if isPre kw cs then
    match cs.drop kw.length with
    | [] => none
    | c :: r =>
      if jsWS c then
        if ((r.dropWhile jsWS).takeWhile isWordChar).isEmpty then none
        else some (String.mk ((r.dropWhile jsWS).takeWhile isWordChar),
                   (r.dropWhile jsWS).drop ((r.dropWhile jsWS).takeWhile isWordChar).length)
      else none
  else none

/-- First defined value in a list of options. -/
def firstSome {α : Type} : List (Option α) → Option α
  | [] => none
  | some x :: _ => some x
  | none :: rest => firstSome rest

/-- Try the keyword alternatives in regex order at the head of `cs`. -/
def symMatchAt (cs : List Char) : Option (String × List Char) :=
  firstSome (symbolKeywords.map fun kw => symMatchKw kw cs)

theorem symMatchKw_rest_lt {kw cs w rest} (h : symMatchKw kw cs = some (w, rest)) :
    rest.length < cs.length := by
  unfold symMatchKw at h
  split at h
  · split at h
    · simp at h
    · next c r heq =>
      have hr : r.length + 1 ≤ cs.length := by
        have := congrArg List.length heq
        simp [List.length_drop] at this
        omega
      split at h
      · split at h
        · simp at h
        · have hrest : rest = (r.dropWhile jsWS).drop
              ((r.dropWhile jsWS).takeWhile isWordChar).length := by
            injection h with h1
            injection h1 with _ h2
            exact h2.symm
          have h1 : ((r.dropWhile jsWS).drop
              ((r.dropWhile jsWS).takeWhile isWordChar).length).length ≤
              (r.dropWhile jsWS).length := by
            simp [List.length_drop]
          have h2 : (r.dropWhile jsWS).length ≤ r.length :=
            (List.dropWhile_suffix jsWS).sublist.length_le
          subst hrest
          omega
      · simp at h
  · simp at h

theorem firstSome_mem {α : Type} {l : List (Option α)} {x : α}
    (h : firstSome l = some x) : some x ∈ l := by
  induction l with
  | nil => simp [firstSome] at h
  | cons o rest ih =>
    match o with
    | some y =>
      simp only [firstSome, Option.some.injEq] at h
      simp [h]
    | none =>
      simp only [firstSome] at h
      exact List.mem_cons_of_mem _ (ih h)

theorem symMatchAt_rest_lt {cs w rest} (h : symMatchAt cs = some (w, rest)) :
    rest.length < cs.length := by
  have hmem := firstSome_mem h
  simp only [symbolKeywords, List.map, List.mem_cons, List.mem_singleton] at hmem
  rcases hmem with h' | h' | h' | h' | h' | h' | h'
  all_goals first
    | exact symMatchKw_rest_lt h'.symm
    | simp at h'

/-- Fuel-driven scanner; the fuel only serves structural termination and
is irrelevant above the input length (`scanSymbolsGo_congr`), since every
step strictly shrinks the input (`symMatchAt_rest_lt`). -/
def scanSymbolsGo : Nat → List Char → List String
  | 0, _ => []
  | _ + 1, [] => []
  | fuel + 1, c :: rest =>
    match symMatchAt (c :: rest) with
    | some (w, after) => w :: scanSymbolsGo fuel after
    | none => scanSymbolsGo fuel rest

/-- Scan the content for all (non-overlapping, leftmost) matches of the
symbol regex, returning the captured identifiers in order
(`content.match(/.../g)` followed by `m.split(/\s+/)[1]`). -/
def scanSymbols (cs : List Char) : List String := scanSymbolsGo cs.length cs

theorem scanSymbolsGo_congr :
    ∀ (fuel fuel' : Nat) (cs : List Char), cs.length ≤ fuel → cs.length ≤ fuel' →
      scanSymbolsGo fuel cs = scanSymbolsGo fuel' cs := by
  intro fuel
  induction fuel with
  | zero =>
    intro fuel' cs h _
    have : cs = [] := List.length_eq_zero.mp (Nat.le_zero.mp h)
    subst this
    cases fuel' <;> rfl
  | succ fuel ih =>
    intro fuel' cs h h'
    match cs with
    | [] => cases fuel' <;> rfl
    | c :: rest =>
      match fuel', h' with
      | fuel' + 1, h' =>
        simp only [scanSymbolsGo]
        cases hm : symMatchAt (c :: rest) with
        | some wa =>
          match wa with
          | (w, after) =>
            have hlt := symMatchAt_rest_lt hm
            simp only [List.length_cons] at h h' hlt
            dsimp only
            rw [ih fuel' after (by omega) (by omega)]
        | none =>
          simp only [List.length_cons] at h h'
          dsimp only
          rw [ih fuel' rest (by omega) (by omega)]

/-- `ContextManager.summarizeFileContent` (manager.ts:579-596).  The line
count `content.split('\n').length` equals the newline count plus one. -/
def summarizeFileContent (content : String) : String :=
  let lineCount := countChar '\n' content.data + 1
  let functionMatches := scanSymbols content.data
  let symbols := functionMatches.take 5
  let base := "(" ++ toString lineCount ++ "行)"
  if symbols.length > 0 then
    let withSyms := base ++ " 包含: " ++ String.intercalate ", " symbols
    if functionMatches.length > 5 then
      withSyms ++ " 等" ++ toString functionMatches.length ++ "个符号"
    else withSyms
  else base

/-- `ContextManager.createCompressedContent` (manager.ts:555-574).
`preview` takes the first 200 characters (JS slices UTF-16 code units;
identical for the BMP text these paths see) with newlines collapsed. -/
def createCompressedContent (m : ChatMessage) : String :=
  let toolName := m.metadata.bind (·.toolName)
  let source := m.metadata.bind (·.source)
  if toolName == some "read_file" && optTruthy source then
    "[COMPRESSED:" ++ m.key ++ "] 文件 " ++ (source.getD "") ++ "\n" ++
      summarizeFileContent m.content ++
      "\n如需完整内容，使用 recall_detail(key=\"" ++ m.key ++ "\")"
  else if toolName == some "ripgrep" then
    "[COMPRESSED:" ++ m.key ++ "] 搜索结果 (" ++ toString (countChar '\n' m.content.data) ++
      "个匹配)\n如需完整结果，使用 recall_detail(key=\"" ++ m.key ++ "\")"
  else
    let preview := String.mk ((m.content.data.take 200).map fun c => if c = '\n' then ' ' else c)
    "[COMPRESSED:" ++ m.key ++ "] " ++ preview ++
      "...\n如需完整内容，使用 recall_detail(key=\"" ++ m.key ++ "\")"

/-! ### Compression candidates and the compression pass -/

/-- Candidate priority. -/
inductive Priority where
  | high
  | medium
  | low
  deriving DecidableEq, Repr

/-- Numeric order used by the sort comparator (`{high:0, medium:1, low:2}`). -/
def priorityOrder : Priority → Nat
  | .high => 0
  | .medium => 1
  | .low => 2

/-- Compression ROI entry (`CompressionROI`). -/
structure CompressionROI where
  messageKey : String
  currentTokens : Nat
  estimatedCompressedTokens : Nat
  savings : Int
  priority : Priority
  deriving DecidableEq, Repr

/-- ROI entry for one message (manager.ts:522-546).
`max(50, Math.ceil(tokens * ratio))` with ratio 0.05 for tool results and
0.2 otherwise is modelled with exact rational ceilings. -/
def candidateOf (m : ChatMessage) : CompressionROI :=
  let isToolResult := optTruthy (m.metadata.bind (·.toolName))
  let estimatedCompressedTokens :=
    if isToolResult then max 50 ((m.tokens + 19) / 20) else max 50 ((m.tokens + 4) / 5)
  let priority :=
    if m.metadata.bind (·.toolName) == some "read_file" then Priority.high
    else if m.metadata.bind (·.toolName) == some "ripgrep" then Priority.high
    else if m.role == Role.assistant then Priority.low
    else Priority.medium
  { messageKey := m.key, currentTokens := m.tokens,
    estimatedCompressedTokens := estimatedCompressedTokens,
    savings := (m.tokens : Int) - (estimatedCompressedTokens : Int),
    priority := priority }

/-- `ContextManager.getCompressionCandidates` (manager.ts:512-550):
the protected recent tail `messages.slice(0, -protectedCount)` is
excluded, then compressible messages are turned into ROI entries. -/
def getCompressionCandidates (s : Session) : List CompressionROI :=
  ((s.messages.take (s.messages.length - protectedRecentMessages)).filter
    (fun m => isCompressible m)).map candidateOf

/-- Sort order of the candidate comparator (manager.ts:267-273): priority
first, then savings descending. -/
def candLE (a b : CompressionROI) : Bool :=
  if priorityOrder a.priority ≠ priorityOrder b.priority then
    decide (priorityOrder a.priority < priorityOrder b.priority)
  else decide (b.savings ≤ a.savings)

/-- Insert a candidate after every element that sorts no later than it. -/
def insertCand (x : CompressionROI) : List CompressionROI → List CompressionROI
  | [] => [x]
  | y :: rest => if candLE y x then y :: insertCand x rest else x :: y :: rest

def sortCandidatesGo : List CompressionROI → List CompressionROI → List CompressionROI
  | acc, [] => acc
  | acc, c :: rest => sortCandidatesGo (insertCand c acc) rest

/-- Stable sort of the candidates by `candLE` (`candidates.sort(...)`,
manager.ts:267-273).  The JS engine sort is stable (required since
ES2019); `candLE` is a total preorder, and for a total preorder every
stable sort produces the same list, so the left-to-right insertion sort
below — which inserts each later element after all its ties — computes
exactly the JS result. -/
def sortCandidates (l : List CompressionROI) : List CompressionROI :=
  sortCandidatesGo [] l

theorem mem_insertCand {x y : CompressionROI} :
    ∀ {l : List CompressionROI}, y ∈ insertCand x l ↔ y = x ∨ y ∈ l := by
  intro l
  induction l with
  | nil => simp [insertCand]
  | cons z rest ih =>
    simp only [insertCand]
    split
    · simp only [List.mem_cons, ih]
      tauto
    · simp [List.mem_cons]

theorem mem_sortCandidatesGo {y : CompressionROI} :
    ∀ (l acc : List CompressionROI),
      y ∈ sortCandidatesGo acc l ↔ y ∈ acc ∨ y ∈ l := by
  intro l
  induction l with
  | nil => intro acc; simp [sortCandidatesGo]
  | cons c rest ih =>
    intro acc
    simp only [sortCandidatesGo, ih, mem_insertCand, List.mem_cons]
    tauto

theorem mem_sortCandidates {y : CompressionROI} {l : List CompressionROI} :
    y ∈ sortCandidates l ↔ y ∈ l := by
  simp [sortCandidates, mem_sortCandidatesGo]

/-- The in-place compression of one message inside the compression loop
(manager.ts:283-292). -/
def compressMsg (est : String → Nat) (m : ChatMessage) : ChatMessage :=
  let compressedContent := createCompressedContent m
  { m with originalTokens := some m.tokens, content := compressedContent,
           tokens := est compressedContent, compressed := true }

/-- The candidate loop of `ContextManager.compress` (manager.ts:276-304).
State is threaded explicitly; `freed` accumulates `savings`. -/
def compressLoop (est : String → Nat) :
    Session → List CompressionROI → Int → Int → Session × Int
  | s, [], _, freed => (s, freed)
  | s, c :: rest, tokensToFree, freed =>
    if tokensToFree ≤ freed then (s, freed)
    else match findByKey s.messages c.messageKey with
      | none => compressLoop est s rest tokensToFree freed
      | some message =>
        if message.compressed then compressLoop est s rest tokensToFree freed
        else
          let m' := compressMsg est message
          let savings : Int := (message.tokens : Int) - (m'.tokens : Int)
          compressLoop est
            { s with messages := updateFirst s.messages c.messageKey m',
                     totalTokens := s.totalTokens - savings }
            rest tokensToFree (freed + savings)

/-- The key-collection loop of `discardOldestMessages`
(manager.ts:609-614): walk the discardable list, stopping once enough
tokens are freed; returns the keys picked and the total freed. -/
def pickDiscard : List ChatMessage → Int → Int → List String × Int
  | [], _, freed => ([], freed)
  | m :: rest, tokensToFree, freed =>
    if tokensToFree ≤ freed then ([], freed)
    else
      (m.key :: (pickDiscard rest tokensToFree (freed + (m.tokens : Int))).fst,
       (pickDiscard rest tokensToFree (freed + (m.tokens : Int))).snd)

/-- `ContextManager.discardOldestMessages` (manager.ts:601-629). -/
def discardOldestMessages (s : Session) (tokensToFree : Int) : Session :=
  let discardable := s.messages.take (s.messages.length - protectedRecentMessages)
  let picked := pickDiscard discardable tokensToFree 0
  { s with messages := s.messages.filter (fun m => !(picked.fst.contains m.key)),
           totalTokens := s.totalTokens - picked.snd }

/-- `ContextManager.compress` (manager.ts:250-326). -/
def compress (est : String → Nat) (cfg : BudgetConfig) (s : Session) : Session :=
  let tokensToFree := calculateTokensToFree cfg s
  if tokensToFree ≤ 0 then s
  else
    let candidates := getCompressionCandidates s
    if candidates.isEmpty then discardOldestMessages s tokensToFree
    else
      let sorted := sortCandidates candidates
      let res := compressLoop est s sorted tokensToFree 0
      if res.snd < tokensToFree then discardOldestMessages res.fst (tokensToFree - res.snd)
      else res.fst

/-! ### Adding messages, recall, synthesis filter -/

/-- Parameters of `ContextManager.addMessage`. -/
structure AddParams where
  role : Role
  content : String
  metadata : Option MsgMeta := none

/-- Fresh message key; models `msg_${nanoid(8)}` with a counter (nanoid
gives fresh unique ids; only freshness matters, so the counter is encoded
in the key length to keep injectivity elementary). -/
def mkKey (n : Nat) : String := String.mk ("msg_".data ++ List.replicate n 'x')

/-- The record `saveMessageContent` persists (storage.ts:117-132). -/
def storedOf (m : ChatMessage) : StoredMessage :=
  { key := m.key, role := m.role, content := m.content, tokens := m.tokens,
    timestamp := m.timestamp, metadata := m.metadata }

/-- The message record built by `addMessage` (manager.ts:100-108). -/
def newMessage (est : String → Nat) (s : Session) (p : AddParams) : ChatMessage :=
  { key := mkKey s.nextId, role := p.role, content := p.content,
    tokens := est p.content, compressed := false, metadata := p.metadata }

/-- The first half of `addMessage` (manager.ts:99-121): build the message,
save the original to L0 iff compressible, append, update totals. -/
def pushMessage (est : String → Nat) (s : Session) (p : AddParams) :
    Session × ChatMessage :=
  ({ s with nextId := s.nextId + 1,
            storageMessages :=
              if isCompressible (newMessage est s p) then
                ((newMessage est s p).key, storedOf (newMessage est s p)) :: s.storageMessages
              else s.storageMessages,
            messages := s.messages ++ [newMessage est s p],
            totalTokens := s.totalTokens + (est p.content : Int) },
   newMessage est s p)

/-- `ContextManager.addMessage` (manager.ts:90-133): push, then compress
when the budget trigger fires. -/
def addMessage (est : String → Nat) (cfg : BudgetConfig) (s : Session) (p : AddParams) :
    Session × ChatMessage :=
  (if needsCompression cfg (pushMessage est s p).fst then
     compress est cfg (pushMessage est s p).fst
   else (pushMessage est s p).fst,
   (pushMessage est s p).snd)

/-- `ContextManager.initSession` (manager.ts:72-78); the nanoid session id
is abstracted to a constant, the budget is derived. -/
def initSession (query workingDir : String) : Session :=
  { id := "session", query := query, workingDir := workingDir, messages := [],
    totalTokens := 0, storageMessages := [], nextId := 0, systemPromptTokens := 0 }

/-- `ContextManager.setSystemPromptTokens` (manager.ts:425-430). -/
def setSystemPromptTokens (s : Session) (tokens : Nat) : Session :=
  { s with systemPromptTokens := tokens }

/-- Result of `ContextManager.recall` (`RecallResult`). -/
structure RecallResult where
  success : Bool
  content : String
  tokens : Nat
  source : Option String := none
  deriving DecidableEq, Repr

/-- `ContextManager.recall` (manager.ts:331-408).  The model always has a
session, so the no-active-session branch has no counterpart; disk reads
come from the in-memory storage map.  The JS guard `if (!request.key)`
fires exactly for the empty string. -/
def «recall» (s : Session) (key : String) : RecallResult :=
  if key = "" then
    { success := false,
      content := "错误: 缺少 key 参数。请提供要召回的消息 key，格式如 msg_xxxxxxxx",
      tokens := 0 }
  else
    match findByKey s.messages key with
    | none =>
      let compressedMessages := ((s.messages.filter (·.compressed)).map (·.key)).take 5
      let hint :=
        if compressedMessages.length > 0 then
          "\n可用的压缩消息 key: " ++ String.intercalate ", " compressedMessages
        else "\n当前没有被压缩的消息。"
      { success := false,
        content := "错误: 未找到 key 为 \"" ++ key ++ "\" 的消息。" ++ hint,
        tokens := 0 }
    | some message =>
      if !message.compressed then
        { success := true,
          content := "注意: 该消息未被压缩，以下是当前内容:\n\n" ++ message.content,
          tokens := message.tokens, source := message.metadata.bind (·.source) }
      else
        match lookupStored s.storageMessages message.key with
        | none =>
          { success := false,
            content := "错误: 无法从存储中加载 key \"" ++ key ++
              "\" 的原始内容。存储文件可能已丢失。",
            tokens := 0 }
        | some original =>
          { success := true, content := original.content, tokens := original.tokens,
            source := original.metadata.bind (·.source) }

/-- Projection for synthesis (`SynthesisMessage`). -/
structure SynthesisMessage where
  key : String
  role : Role
  content : String
  toolName : Option String := none
  source : Option String := none
  compressed : Bool
  deriving DecidableEq, Repr

/-- The push without tool fields (assistant messages and the plain query,
manager.ts:172-192). -/
def synthBasic (m : ChatMessage) : SynthesisMessage :=
  { key := m.key, role := m.role, content := m.content, compressed := m.compressed }

/-- The push with tool fields (read_file and other tool results,
manager.ts:212-231; both branches push the same shape). -/
def synthWithTool (m : ChatMessage) : SynthesisMessage :=
  { key := m.key, role := m.role, content := m.content,
    toolName := m.metadata.bind (·.toolName), source := m.metadata.bind (·.source),
    compressed := m.compressed }

/-- `ContextManager.getMessagesForSynthesis` (manager.ts:161-235), as a
function of the session's message list. -/
def getMessagesForSynthesis : List ChatMessage → List SynthesisMessage
  | [] => []
  | msg :: rest =>
    if msg.role == Role.assistant then synthBasic msg :: getMessagesForSynthesis rest
    else if !optTruthy (msg.metadata.bind (·.toolName)) then
      synthBasic msg :: getMessagesForSynthesis rest
    else if containsSub msg.content "执行失败" || containsSub msg.content "错误:" then
      getMessagesForSynthesis rest
    else if msg.metadata.bind (·.toolName) == some "list_dir" then
      getMessagesForSynthesis rest
    else if msg.metadata.bind (·.toolName) == some "ripgrep" then
      getMessagesForSynthesis rest
    else synthWithTool msg :: getMessagesForSynthesis rest

/-! ### Observable operation sequences -/

/-- States reachable through the public ContextManager operations.
The recall and save operations do not change state and need no step; the
private `discardOldestMessages` is reached from `compress` but is also
included as a step of its own so that invariants hold at that observable
point.  The `push` step (the first half of `addMessage`) is included so
that the compression `addMessage` performs internally is exactly the
`compress` function applied to a reachable state; it only enlarges the
set of states the invariants are proved for. -/
inductive Reachable (est : String → Nat) (cfg : BudgetConfig) : Session → Prop where
  | init (query workingDir : String) : Reachable est cfg (initSession query workingDir)
  | push {s} (p : AddParams) :
      Reachable est cfg s → Reachable est cfg (pushMessage est s p).fst
  | addMessage {s} (p : AddParams) :
      Reachable est cfg s → Reachable est cfg (addMessage est cfg s p).fst
  | compress {s} : Reachable est cfg s → Reachable est cfg (compress est cfg s)
  | discard {s} (tokensToFree : Int) :
      Reachable est cfg s → Reachable est cfg (discardOldestMessages s tokensToFree)
  | setSystemPromptTokens {s} (tokens : Nat) :
      Reachable est cfg s → Reachable est cfg (setSystemPromptTokens s tokens)

/-! ### List-level helper lemmas -/

/-- Total of the `tokens` fields of a message list, as an integer. -/
def msgTokenSum (l : List ChatMessage) : Int :=
  (l.map fun m => (m.tokens : Int)).sum

theorem msgTokenSum_nil : msgTokenSum [] = 0 := rfl

theorem msgTokenSum_cons (m : ChatMessage) (l : List ChatMessage) :
    msgTokenSum (m :: l) = (m.tokens : Int) + msgTokenSum l := by
  simp [msgTokenSum]

theorem msgTokenSum_append (l₁ l₂ : List ChatMessage) :
    msgTokenSum (l₁ ++ l₂) = msgTokenSum l₁ + msgTokenSum l₂ := by
  simp [msgTokenSum]

theorem msgTokenSum_take_drop (l : List ChatMessage) (j : Nat) :
    msgTokenSum (l.take j) + msgTokenSum (l.drop j) = msgTokenSum l := by
  conv_rhs => rw [← List.take_append_drop j l]
  rw [msgTokenSum_append]

theorem mkKey_inj {a b : Nat} (h : mkKey a = mkKey b) : a = b := by
  have hd : "msg_".data ++ List.replicate a 'x' = "msg_".data ++ List.replicate b 'x' :=
    congrArg String.data h
  have hc := List.append_cancel_left hd
  have hl := congrArg List.length hc
  simpa using hl

theorem findByKey_some {l : List ChatMessage} {k : String} {m : ChatMessage}
    (h : findByKey l k = some m) : m ∈ l ∧ m.key = k := by
  induction l with
  | nil => simp [findByKey] at h
  | cons x rest ih =>
    simp only [findByKey] at h
    split at h
    · next heq =>
      cases h
      exact ⟨List.mem_cons_self _ _, by simpa [beq_iff_eq] using heq⟩
    · obtain ⟨hm, hk⟩ := ih h
      exact ⟨List.mem_cons_of_mem _ hm, hk⟩

theorem findByKey_eq_none {l : List ChatMessage} {k : String} :
    findByKey l k = none ↔ k ∉ l.map (·.key) := by
  induction l with
  | nil => simp [findByKey]
  | cons x rest ih =>
    simp only [findByKey, List.map_cons, List.mem_cons]
    constructor
    · intro h
      split at h
      · simp at h
      · next hne =>
        intro hc
        rcases hc with hc | hc
        · exact hne (by simpa [beq_iff_eq] using hc.symm)
        · exact (ih.mp h) hc
    · intro h
      have h1 : ¬(x.key == k) = true := by
        simp only [beq_iff_eq]
        intro he
        exact h (Or.inl he.symm)
      rw [if_neg h1]
      exact ih.mpr fun hc => h (Or.inr hc)

theorem findByKey_of_mem_nodup {l : List ChatMessage}
    (hnd : (l.map (·.key)).Nodup) {m : ChatMessage} (hm : m ∈ l) :
    findByKey l m.key = some m := by
  induction l with
  | nil => simp at hm
  | cons x rest ih =>
    simp only [List.map_cons, List.nodup_cons] at hnd
    rcases List.mem_cons.mp hm with rfl | hm'
    · simp [findByKey]
    · have hx : ¬(x.key == m.key) = true := by
        simp only [beq_iff_eq]
        intro he
        exact hnd.1 (he ▸ List.mem_map_of_mem (·.key) hm')
      simp only [findByKey, if_neg hx]
      exact ih hnd.2 hm'

theorem eq_of_mem_of_key_eq {l : List ChatMessage}
    (hnd : (l.map (·.key)).Nodup) {m₁ m₂ : ChatMessage}
    (h1 : m₁ ∈ l) (h2 : m₂ ∈ l) (hk : m₁.key = m₂.key) : m₁ = m₂ := by
  have e1 := findByKey_of_mem_nodup hnd h1
  have e2 := findByKey_of_mem_nodup hnd h2
  rw [hk] at e1
  rw [e1] at e2
  exact (Option.some.injEq _ _ ▸ e2)

theorem updateFirst_of_none {l : List ChatMessage} {k : String} {v : ChatMessage}
    (h : findByKey l k = none) : updateFirst l k v = l := by
  induction l with
  | nil => rfl
  | cons x rest ih =>
    simp only [findByKey] at h
    split at h
    · simp at h
    · next hne => simp only [updateFirst, if_neg hne, ih h]

theorem updateFirst_map_key {l : List ChatMessage} {k : String} {v : ChatMessage}
    (hv : v.key = k) : (updateFirst l k v).map (·.key) = l.map (·.key) := by
  induction l with
  | nil => rfl
  | cons x rest ih =>
    simp only [updateFirst]
    split
    · next heq => simp [hv, beq_iff_eq.mp heq]
    · simp [ih]

theorem updateFirst_length {l : List ChatMessage} {k : String} {v : ChatMessage}
    (hv : v.key = k) : (updateFirst l k v).length = l.length := by
  have := congrArg List.length (updateFirst_map_key (l := l) hv)
  simpa using this

theorem msgTokenSum_updateFirst {l : List ChatMessage} {k : String}
    {v m : ChatMessage} (h : findByKey l k = some m) :
    msgTokenSum (updateFirst l k v) = msgTokenSum l - (m.tokens : Int) + (v.tokens : Int) := by
  induction l with
  | nil => simp [findByKey] at h
  | cons x rest ih =>
    simp only [findByKey] at h
    simp only [updateFirst]
    split at h
    · next heq =>
      cases h
      simp only [if_pos heq, msgTokenSum_cons]
      ring
    · next hne =>
      simp only [if_neg hne, msgTokenSum_cons, ih h]
      ring

theorem findByKey_updateFirst_self {l : List ChatMessage} {k : String}
    {v m : ChatMessage} (hv : v.key = k) (h : findByKey l k = some m) :
    findByKey (updateFirst l k v) k = some v := by
  induction l with
  | nil => simp [findByKey] at h
  | cons x rest ih =>
    by_cases hxk : (x.key == k) = true
    · have h2 : updateFirst (x :: rest) k v = v :: rest := by
        simp only [updateFirst, if_pos hxk]
      rw [h2]
      simp [findByKey, hv]
    · have h2 : updateFirst (x :: rest) k v = x :: updateFirst rest k v := by
        simp only [updateFirst, if_neg hxk]
      rw [h2]
      have h3 : findByKey rest k = some m := by
        simpa only [findByKey, if_neg hxk] using h
      simp only [findByKey, if_neg hxk]
      exact ih h3

theorem findByKey_updateFirst_ne {l : List ChatMessage} {k k₂ : String}
    {v : ChatMessage} (hv : v.key = k) (hne : k₂ ≠ k) :
    findByKey (updateFirst l k v) k₂ = findByKey l k₂ := by
  induction l with
  | nil => rfl
  | cons x rest ih =>
    simp only [updateFirst]
    split
    · next heq =>
      have hx : x.key = k := beq_iff_eq.mp heq
      have hxk : ¬(x.key == k₂) = true := by
        simp only [beq_iff_eq, hx]
        exact fun he => hne he.symm
      have hvk : ¬(v.key == k₂) = true := by
        simp only [beq_iff_eq, hv]
        exact fun he => hne he.symm
      simp [findByKey, hxk, hvk]
    · simp only [findByKey]
      split
      · rfl
      · exact ih

theorem updateFirst_drop_of_not_mem {l : List ChatMessage} {k : String}
    {v : ChatMessage} : ∀ {n : Nat}, k ∉ ((l.drop n).map (·.key)) →
    (updateFirst l k v).drop n = l.drop n := by
  induction l with
  | nil => intro n _; rfl
  | cons x rest ih =>
    intro n h
    match n with
    | 0 =>
      simp only [List.drop_zero] at h ⊢
      exact updateFirst_of_none (findByKey_eq_none.mpr h)
    | n + 1 =>
      simp only [List.drop_succ_cons] at h ⊢
      simp only [updateFirst]
      split
      · simp only [List.drop_succ_cons]
      · simp only [List.drop_succ_cons]
        exact ih h

/-! ### The discard path -/

theorem pickDiscard_spec (l : List ChatMessage) :
    ∀ (need acc : Int), ∃ j,
      (pickDiscard l need acc).fst = (l.take j).map (·.key) ∧
      (pickDiscard l need acc).snd = acc + msgTokenSum (l.take j) := by
  induction l with
  | nil =>
    intro need acc
    exact ⟨0, by simp [pickDiscard, msgTokenSum_nil]⟩
  | cons m rest ih =>
    intro need acc
    simp only [pickDiscard]
    split
    · exact ⟨0, by simp [msgTokenSum_nil]⟩
    · obtain ⟨j, h1, h2⟩ := ih need (acc + (m.tokens : Int))
      refine ⟨j + 1, ?_, ?_⟩
      · simp [List.take_succ_cons, h1]
      · simp only [List.take_succ_cons, msgTokenSum_cons, h2]
        ring

theorem filter_take_keys_eq_drop :
    ∀ (j : Nat) (l : List ChatMessage), (l.map (·.key)).Nodup →
      l.filter (fun m => !(((l.take j).map (·.key)).contains m.key)) = l.drop j := by
  intro j
  induction j with
  | zero =>
    intro l _
    simp
  | succ j ih =>
    intro l hnd
    match l with
    | [] => rfl
    | m :: rest =>
      simp only [List.take_succ_cons, List.map_cons, List.drop_succ_cons]
      rw [List.filter_cons]
      have hp : (!((m.key :: (rest.take j).map (·.key)).contains m.key)) = false := by
        simp [List.contains_cons]
      rw [hp]
      simp only [Bool.false_eq_true, if_false]
      have hnd' : ((m :: rest).map (·.key)).Nodup := hnd
      simp only [List.map_cons, List.nodup_cons] at hnd'
      have hcong : ∀ u ∈ rest,
          (!((m.key :: (rest.take j).map (·.key)).contains u.key)) =
          (!(((rest.take j).map (·.key)).contains u.key)) := by
        intro u hu
        have hne : u.key ≠ m.key := by
          intro he
          exact hnd'.1 (he ▸ List.mem_map_of_mem (·.key) hu)
        simp [List.contains_cons, hne]
      rw [List.filter_congr hcong]
      exact ih rest hnd'.2

theorem discard_storage (s : Session) (n : Int) :
    (discardOldestMessages s n).storageMessages = s.storageMessages := rfl

theorem discard_nextId (s : Session) (n : Int) :
    (discardOldestMessages s n).nextId = s.nextId := rfl

theorem discard_sys (s : Session) (n : Int) :
    (discardOldestMessages s n).systemPromptTokens = s.systemPromptTokens := rfl

theorem discard_messages_spec {s : Session}
    (hnd : (s.messages.map (·.key)).Nodup) (n : Int) :
    ∃ j, j ≤ s.messages.length - protectedRecentMessages ∧
      (discardOldestMessages s n).messages = s.messages.drop j ∧
      (discardOldestMessages s n).totalTokens =
        s.totalTokens - msgTokenSum (s.messages.take j) := by
  obtain ⟨j, h1, h2⟩ :=
    pickDiscard_spec (s.messages.take (s.messages.length - protectedRecentMessages)) n 0
  refine ⟨min j (s.messages.length - protectedRecentMessages), min_le_right _ _, ?_, ?_⟩
  · show s.messages.filter _ = _
    rw [show (pickDiscard (s.messages.take (s.messages.length - protectedRecentMessages)) n 0).fst
        = (s.messages.take (min j (s.messages.length - protectedRecentMessages))).map (·.key) by
      rw [h1, List.take_take]]
    exact filter_take_keys_eq_drop _ _ hnd
  · show s.totalTokens - (pickDiscard _ n 0).snd = _
    rw [h2, List.take_take]
    ring

theorem discard_suffix {s : Session}
    (hnd : (s.messages.map (·.key)).Nodup) (n : Int) :
    List.IsSuffix (s.messages.drop (s.messages.length - protectedRecentMessages))
      (discardOldestMessages s n).messages := by
  obtain ⟨j, hj, hm, _⟩ := discard_messages_spec hnd n
  rw [hm]
  have heq : s.messages.drop (s.messages.length - protectedRecentMessages) =
      (s.messages.drop j).drop ((s.messages.length - protectedRecentMessages) - j) := by
    rw [List.drop_drop]
    congr 1
    omega
  rw [heq]
  exact List.drop_suffix _ _

/-! ### Well-formedness of reachable sessions -/

/-- Well-formedness bundle maintained by every public operation:
(1) `totalTokens` equals the token sum of the live messages,
(2) message keys are distinct,
(3) message keys were allocated below the fresh-key counter,
(4) every live uncompressed compressible message has its original content
and token count preserved in L0 storage. -/
structure WF (s : Session) : Prop where
  total_eq : s.totalTokens = msgTokenSum s.messages
  keys_nodup : (s.messages.map (·.key)).Nodup
  keys_bounded : ∀ m ∈ s.messages, ∃ i, i < s.nextId ∧ m.key = mkKey i
  storage_of_uncompressed : ∀ m ∈ s.messages, m.compressed = false →
    isCompressible m = true →
    ∃ st, lookupStored s.storageMessages m.key = some st ∧
      st.content = m.content ∧ st.tokens = m.tokens

theorem WF_discard {s : Session} (h : WF s) (n : Int) :
    WF (discardOldestMessages s n) := by
  obtain ⟨j, _, hm, ht⟩ := discard_messages_spec h.keys_nodup n
  constructor
  · rw [ht, hm, h.total_eq]
    have := msgTokenSum_take_drop s.messages j
    omega
  · rw [hm, List.map_drop]
    exact h.keys_nodup.sublist (List.drop_sublist _ _)
  · intro m hmem
    rw [discard_nextId]
    exact h.keys_bounded m (List.drop_subset _ _ (hm ▸ hmem))
  · intro m hmem hc hic
    rw [discard_storage]
    exact h.storage_of_uncompressed m (List.drop_subset _ _ (hm ▸ hmem)) hc hic

/-! ### The compression loop -/

/-- Candidate soundness: any candidate key that still designates an
uncompressed message designates a compressible one.  This holds for the
candidates computed by `getCompressionCandidates` and is preserved while
the loop compresses messages. -/
def CandOK (s : Session) (cands : List CompressionROI) : Prop :=
  ∀ c ∈ cands, ∀ m, findByKey s.messages c.messageKey = some m →
    m.compressed = false → isCompressible m = true

/-- Relation between the session before and after a `compressLoop` run. -/
structure LoopSpec (est : String → Nat) (cands : List CompressionROI)
    (s r : Session) : Prop where
  storage_eq : r.storageMessages = s.storageMessages
  nextId_eq : r.nextId = s.nextId
  sys_eq : r.systemPromptTokens = s.systemPromptTokens
  keys_eq : r.messages.map (·.key) = s.messages.map (·.key)
  total_eq : s.totalTokens = msgTokenSum s.messages →
    r.totalTokens = msgTokenSum r.messages
  change : ∀ k m', findByKey r.messages k = some m' →
    findByKey s.messages k = some m' ∨
    ∃ m, findByKey s.messages k = some m ∧ m.compressed = false ∧
      isCompressible m = true ∧ m' = compressMsg est m
  drop_eq : ∀ n, (∀ c ∈ cands, c.messageKey ∉ (s.messages.drop n).map (·.key)) →
    r.messages.drop n = s.messages.drop n

theorem compressMsg_key (est : String → Nat) (m : ChatMessage) :
    (compressMsg est m).key = m.key := rfl

theorem LoopSpec.weaken {est : String → Nat} {c : CompressionROI}
    {cands : List CompressionROI} {s r : Session}
    (h : LoopSpec est cands s r) : LoopSpec est (c :: cands) s r :=
  { h with drop_eq := fun n hcond =>
      h.drop_eq n fun c' hc' => hcond c' (List.mem_cons_of_mem _ hc') }

theorem compressMsg_compressed (est : String → Nat) (m : ChatMessage) :
    (compressMsg est m).compressed = true := rfl

theorem compressLoop_spec (est : String → Nat) :
    ∀ (cands : List CompressionROI) (s : Session) (need freed : Int),
      (s.messages.map (·.key)).Nodup → CandOK s cands →
      LoopSpec est cands s (compressLoop est s cands need freed).fst := by
  intro cands
  induction cands with
  | nil =>
    intro s need freed _ _
    exact { storage_eq := rfl, nextId_eq := rfl, sys_eq := rfl, keys_eq := rfl,
            total_eq := fun h => h, change := fun _ _ h => Or.inl h,
            drop_eq := fun _ _ => rfl }
  | cons c rest ih =>
    intro s need freed hnd hok
    have hokRest : CandOK s rest := fun c' hc' => hok c' (List.mem_cons_of_mem _ hc')
    simp only [compressLoop]
    split
    · exact { storage_eq := rfl, nextId_eq := rfl, sys_eq := rfl, keys_eq := rfl,
              total_eq := fun h => h, change := fun _ _ h => Or.inl h,
              drop_eq := fun _ _ => rfl }
    · split
      · next hfind => exact (ih s need freed hnd hokRest).weaken
      · next message hfind =>
        split
        · exact (ih s need freed hnd hokRest).weaken
        · next hcomp =>
          have hkm := findByKey_some hfind
          have hcompf : message.compressed = false := by
            simpa using hcomp
          have hic : isCompressible message = true :=
            hok c (List.mem_cons_self _ _) message hfind hcompf
          have hm'key : (compressMsg est message).key = c.messageKey := by
            rw [compressMsg_key]
            exact hkm.2
          have hkeys' :
              (updateFirst s.messages c.messageKey (compressMsg est message)).map (·.key) =
              s.messages.map (·.key) := updateFirst_map_key hm'key
          have hnd' :
              ((updateFirst s.messages c.messageKey (compressMsg est message)).map (·.key)).Nodup := by
            rw [hkeys']
            exact hnd
          have hfind' : ∀ k₂, k₂ ≠ c.messageKey →
              findByKey (updateFirst s.messages c.messageKey (compressMsg est message)) k₂ =
              findByKey s.messages k₂ :=
            fun k₂ hne => findByKey_updateFirst_ne hm'key hne
          have hself :
              findByKey (updateFirst s.messages c.messageKey (compressMsg est message))
                c.messageKey = some (compressMsg est message) :=
            findByKey_updateFirst_self hm'key hfind
          have hok' : CandOK
              { s with messages := updateFirst s.messages c.messageKey (compressMsg est message),
                       totalTokens := s.totalTokens -
                         ((message.tokens : Int) - ((compressMsg est message).tokens : Int)) }
              rest := by
            intro c' hc' m₂ hfind₂ hm₂c
            by_cases hkeq : c'.messageKey = c.messageKey
            · rw [hkeq] at hfind₂
              simp only [hself] at hfind₂
              cases hfind₂
              rw [compressMsg_compressed] at hm₂c
              cases hm₂c
            · simp only [hfind' c'.messageKey hkeq] at hfind₂
              exact hokRest c' hc' m₂ hfind₂ hm₂c
          have hspec := ih
            { s with messages := updateFirst s.messages c.messageKey (compressMsg est message),
                     totalTokens := s.totalTokens -
                       ((message.tokens : Int) - ((compressMsg est message).tokens : Int)) }
            need (freed + ((message.tokens : Int) - ((compressMsg est message).tokens : Int)))
            hnd' hok'
          refine { storage_eq := ?_, nextId_eq := ?_, sys_eq := ?_, keys_eq := ?_,
                   total_eq := ?_, change := ?_, drop_eq := ?_ }
          · exact hspec.storage_eq
          · exact hspec.nextId_eq
          · exact hspec.sys_eq
          · exact hspec.keys_eq.trans hkeys'
          · intro h
            apply hspec.total_eq
            show s.totalTokens - _ = msgTokenSum (updateFirst s.messages c.messageKey _)
            rw [msgTokenSum_updateFirst hfind, h]
            ring
          · intro k m'' hf
            rcases hspec.change k m'' hf with h1 | ⟨m₂, h2, h2c, h2ic, h2eq⟩
            · by_cases hkeq : k = c.messageKey
              · subst hkeq
                simp only [hself] at h1
                cases h1
                exact Or.inr ⟨message, hfind, hcompf, hic, rfl⟩
              · simp only [hfind' k hkeq] at h1
                exact Or.inl h1
            · by_cases hkeq : k = c.messageKey
              · subst hkeq
                simp only [hself] at h2
                cases h2
                rw [compressMsg_compressed] at h2c
                cases h2c
              · simp only [hfind' k hkeq] at h2
                exact Or.inr ⟨m₂, h2, h2c, h2ic, h2eq⟩
          · intro n hcond
            have hcnot : c.messageKey ∉ (s.messages.drop n).map (·.key) :=
              hcond c (List.mem_cons_self _ _)
            have hstep :
                (updateFirst s.messages c.messageKey (compressMsg est message)).drop n =
                s.messages.drop n := updateFirst_drop_of_not_mem hcnot
            have hcond' : ∀ c' ∈ rest, c'.messageKey ∉
                (((updateFirst s.messages c.messageKey (compressMsg est message)).drop n).map (·.key)) := by
              intro c' hc'
              rw [hstep]
              exact hcond c' (List.mem_cons_of_mem _ hc')
            rw [hspec.drop_eq n hcond', hstep]

/-! ### Properties of the candidate computation -/

theorem candidates_key_mem {s : Session} {c : CompressionROI}
    (hc : c ∈ getCompressionCandidates s) :
    ∃ m₀ ∈ s.messages.take (s.messages.length - protectedRecentMessages),
      isCompressible m₀ = true ∧ c.messageKey = m₀.key := by
  unfold getCompressionCandidates at hc
  obtain ⟨m₀, hm₀, hcand⟩ := List.mem_map.mp hc
  obtain ⟨hmem, hcomp⟩ := List.mem_filter.mp hm₀
  refine ⟨m₀, hmem, by simpa using hcomp, ?_⟩
  rw [← hcand]
  rfl

theorem candOK_candidates {s : Session}
    (hnd : (s.messages.map (·.key)).Nodup) :
    CandOK s (getCompressionCandidates s) := by
  intro c hc m hfind _
  obtain ⟨m₀, hm₀mem, hm₀c, hkey⟩ := candidates_key_mem hc
  have hmemAll : m₀ ∈ s.messages := List.take_subset _ _ hm₀mem
  have h1 := findByKey_some hfind
  have hm : m = m₀ := eq_of_mem_of_key_eq hnd h1.1 hmemAll (h1.2.trans hkey)
  rw [hm]
  exact hm₀c

theorem candidates_not_in_tail {s : Session}
    (hnd : (s.messages.map (·.key)).Nodup) {c : CompressionROI}
    (hc : c ∈ getCompressionCandidates s) :
    c.messageKey ∉
      ((s.messages.drop (s.messages.length - protectedRecentMessages)).map (·.key)) := by
  obtain ⟨m₀, hm₀mem, _, hkey⟩ := candidates_key_mem hc
  have hin : c.messageKey ∈
      (s.messages.take (s.messages.length - protectedRecentMessages)).map (·.key) :=
    hkey ▸ List.mem_map_of_mem (·.key) hm₀mem
  have hsplit : s.messages.map (·.key) =
      (s.messages.take (s.messages.length - protectedRecentMessages)).map (·.key) ++
      (s.messages.drop (s.messages.length - protectedRecentMessages)).map (·.key) := by
    rw [← List.map_append, List.take_append_drop]
  rw [hsplit] at hnd
  have hdisj := (List.nodup_append.mp hnd).2.2
  exact fun hmem => hdisj hin hmem

/-! ### Case analysis of `compress` -/

theorem compress_cases (est : String → Nat) (cfg : BudgetConfig) (s : Session)
    (hnd : (s.messages.map (·.key)).Nodup) :
    compress est cfg s = s ∨
    (∃ n, compress est cfg s = discardOldestMessages s n) ∨
    (∃ cands need,
      CandOK s cands ∧
      (∀ c ∈ cands, c.messageKey ∉
        ((s.messages.drop (s.messages.length - protectedRecentMessages)).map (·.key))) ∧
      (compress est cfg s = (compressLoop est s cands need 0).fst ∨
       ∃ n, compress est cfg s =
         discardOldestMessages (compressLoop est s cands need 0).fst n)) := by
  unfold compress
  dsimp only
  split
  · exact Or.inl rfl
  · split
    · exact Or.inr (Or.inl ⟨_, rfl⟩)
    · refine Or.inr (Or.inr ⟨sortCandidates (getCompressionCandidates s),
        calculateTokensToFree cfg s, ?_, ?_, ?_⟩)
      · intro c hc
        exact candOK_candidates hnd c (mem_sortCandidates.mp hc)
      · intro c hc
        exact candidates_not_in_tail hnd (mem_sortCandidates.mp hc)
      · split
        · exact Or.inr ⟨_, rfl⟩
        · exact Or.inl rfl

theorem WF_compress {est : String → Nat} {cfg : BudgetConfig} {s : Session}
    (h : WF s) : WF (compress est cfg s) := by
  rcases compress_cases est cfg s h.keys_nodup with heq | ⟨n, heq⟩ |
    ⟨cands, need, hok, _, hcase⟩
  · rw [heq]
    exact h
  · rw [heq]
    exact WF_discard h n
  · have hspec := compressLoop_spec est cands s need 0 h.keys_nodup hok
    have hndr : ((compressLoop est s cands need 0).fst.messages.map (·.key)).Nodup := by
      rw [hspec.keys_eq]
      exact h.keys_nodup
    have hwfr : WF (compressLoop est s cands need 0).fst := by
      constructor
      · exact hspec.total_eq h.total_eq
      · exact hndr
      · intro m hm
        have hmk : m.key ∈ (compressLoop est s cands need 0).fst.messages.map (·.key) :=
          List.mem_map_of_mem (·.key) hm
        rw [hspec.keys_eq] at hmk
        obtain ⟨m₀, hm₀, hkeyeq⟩ := List.mem_map.mp hmk
        obtain ⟨i, hi, hmk₀⟩ := h.keys_bounded m₀ hm₀
        refine ⟨i, ?_, ?_⟩
        · rw [hspec.nextId_eq]
          exact hi
        · rw [← hkeyeq]
          exact hmk₀
      · intro m hm hc hic
        have hfind_r : findByKey (compressLoop est s cands need 0).fst.messages m.key = some m :=
          findByKey_of_mem_nodup hndr hm
        rcases hspec.change m.key m hfind_r with h1 | ⟨m₂, _, _, _, heq2⟩
        · have h2 := findByKey_some h1
          rw [hspec.storage_eq]
          exact h.storage_of_uncompressed m h2.1 hc hic
        · rw [heq2, compressMsg_compressed] at hc
          cases hc
    rcases hcase with heq | ⟨n, heq⟩
    · rw [heq]
      exact hwfr
    · rw [heq]
      exact WF_discard hwfr n

theorem compress_tail_suffix {est : String → Nat} {cfg : BudgetConfig} {s : Session}
    (hnd : (s.messages.map (·.key)).Nodup) :
    List.IsSuffix (s.messages.drop (s.messages.length - protectedRecentMessages))
      (compress est cfg s).messages := by
  rcases compress_cases est cfg s hnd with heq | ⟨n, heq⟩ |
    ⟨cands, need, hok, htail, hcase⟩
  · rw [heq]
    exact List.drop_suffix _ _
  · rw [heq]
    exact discard_suffix hnd n
  · have hspec := compressLoop_spec est cands s need 0 hnd hok
    have hdrop := hspec.drop_eq (s.messages.length - protectedRecentMessages) htail
    have hlenr : (compressLoop est s cands need 0).fst.messages.length = s.messages.length := by
      have := congrArg List.length hspec.keys_eq
      simpa using this
    have hndr : ((compressLoop est s cands need 0).fst.messages.map (·.key)).Nodup := by
      rw [hspec.keys_eq]
      exact hnd
    rcases hcase with heq | ⟨n, heq⟩
    · rw [heq, ← hdrop]
      exact List.drop_suffix _ _
    · rw [heq]
      have hsfx := discard_suffix hndr n
      rw [hlenr, hdrop] at hsfx
      exact hsfx

/-- What a compress pass does to any single message it compressed: the
message was live, uncompressed and compressible before the pass, its
compressed form is exactly `compressMsg`, and L0 storage is untouched. -/
theorem compress_change {est : String → Nat} {cfg : BudgetConfig} {s : Session}
    {k : String} {m m' : ChatMessage} (h : WF s)
    (hm : findByKey s.messages k = some m) (hmc : m.compressed = false)
    (hm' : findByKey (compress est cfg s).messages k = some m')
    (hm'c : m'.compressed = true) :
    m' = compressMsg est m ∧ isCompressible m = true ∧
    (compress est cfg s).storageMessages = s.storageMessages := by
  rcases compress_cases est cfg s h.keys_nodup with heq | ⟨n, heq⟩ |
    ⟨cands, need, hok, _, hcase⟩
  · rw [heq] at hm'
    rw [hm] at hm'
    cases hm'
    rw [hmc] at hm'c
    cases hm'c
  · rw [heq] at hm'
    obtain ⟨j, _, hmsg, _⟩ := discard_messages_spec h.keys_nodup n
    rw [hmsg] at hm'
    have h1 := findByKey_some hm'
    have h2 : m' ∈ s.messages := List.drop_subset _ _ h1.1
    have h3 := findByKey_some hm
    have hmm : m' = m := eq_of_mem_of_key_eq h.keys_nodup h2 h3.1 (h1.2.trans h3.2.symm)
    rw [hmm, hmc] at hm'c
    cases hm'c
  · have hspec := compressLoop_spec est cands s need 0 h.keys_nodup hok
    have hndr : ((compressLoop est s cands need 0).fst.messages.map (·.key)).Nodup := by
      rw [hspec.keys_eq]
      exact h.keys_nodup
    have hfindr : findByKey (compressLoop est s cands need 0).fst.messages k = some m' := by
      rcases hcase with heq | ⟨n, heq⟩
      · rw [← heq]
        exact hm'
      · rw [heq] at hm'
        obtain ⟨j, _, hmsg, _⟩ := discard_messages_spec hndr n
        rw [hmsg] at hm'
        have h1 := findByKey_some hm'
        have h2 : m' ∈ (compressLoop est s cands need 0).fst.messages :=
          List.drop_subset _ _ h1.1
        have := findByKey_of_mem_nodup hndr h2
        rw [h1.2] at this
        exact this
    rcases hspec.change k m' hfindr with h1 | ⟨m₂, h2, h2c, h2ic, h2eq⟩
    · rw [hm] at h1
      cases h1
      rw [hmc] at hm'c
      cases hm'c
    · rw [hm] at h2
      cases h2
      refine ⟨h2eq, h2ic, ?_⟩
      rcases hcase with heq | ⟨n, heq⟩
      · rw [heq]
        exact hspec.storage_eq
      · rw [heq, discard_storage]
        exact hspec.storage_eq

/-! ### Preservation through the public operations -/

theorem WF_push {est : String → Nat} {s : Session} {p : AddParams}
    (h : WF s) : WF (pushMessage est s p).fst := by
  have hfresh : mkKey s.nextId ∉ s.messages.map (·.key) := by
    intro hmem
    obtain ⟨m₀, hm₀, hkeyeq⟩ := List.mem_map.mp hmem
    obtain ⟨i, hi, hmk⟩ := h.keys_bounded m₀ hm₀
    have : i = s.nextId := mkKey_inj (hmk.symm.trans hkeyeq)
    omega
  have hkeynew : (newMessage est s p).key = mkKey s.nextId := rfl
  constructor
  · show s.totalTokens + _ = msgTokenSum (s.messages ++ [newMessage est s p])
    rw [msgTokenSum_append, msgTokenSum_cons, msgTokenSum_nil, h.total_eq]
    have : (newMessage est s p).tokens = est p.content := rfl
    rw [this]
    ring
  · show ((s.messages ++ [newMessage est s p]).map (·.key)).Nodup
    rw [List.map_append]
    rw [List.nodup_append]
    refine ⟨h.keys_nodup, by simp, ?_⟩
    intro a ha hb
    simp only [List.map_cons, List.map_nil, List.mem_singleton] at hb
    rw [hb, hkeynew] at ha
    exact hfresh ha
  · intro m hm
    rcases List.mem_append.mp hm with hmem | hmem
    · obtain ⟨i, hi, hmk⟩ := h.keys_bounded m hmem
      exact ⟨i, Nat.lt_succ_of_lt hi, hmk⟩
    · have hmeq : m = newMessage est s p := by simpa using hmem
      exact ⟨s.nextId, Nat.lt_succ_self _, by rw [hmeq, hkeynew]⟩
  · intro m hm hc hic
    rcases List.mem_append.mp hm with hmem | hmem
    · obtain ⟨st, hst, hc1, hc2⟩ := h.storage_of_uncompressed m hmem hc hic
      refine ⟨st, ?_, hc1, hc2⟩
      show lookupStored (if isCompressible (newMessage est s p) then _ :: s.storageMessages
        else s.storageMessages) m.key = some st
      split
      · have hne : ¬((newMessage est s p).key == m.key) = true := by
          simp only [beq_iff_eq, hkeynew]
          intro he
          exact hfresh (he ▸ List.mem_map_of_mem (·.key) hmem)
        simp only [lookupStored, if_neg hne]
        exact hst
      · exact hst
    · have hmeq : m = newMessage est s p := by simpa using hmem
      have hic' : isCompressible (newMessage est s p) = true := hmeq ▸ hic
      refine ⟨storedOf (newMessage est s p), ?_, by rw [hmeq]; rfl, by rw [hmeq]; rfl⟩
      show lookupStored (if isCompressible (newMessage est s p) then
          ((newMessage est s p).key, storedOf (newMessage est s p)) :: s.storageMessages
        else s.storageMessages) m.key = some (storedOf (newMessage est s p))
      rw [if_pos hic', hmeq]
      simp [lookupStored]

theorem WF_addMessage {est : String → Nat} {cfg : BudgetConfig} {s : Session}
    {p : AddParams} (h : WF s) : WF (addMessage est cfg s p).fst := by
  unfold addMessage
  split
  · exact WF_compress (WF_push h)
  · exact WF_push h

theorem WF_init (query workingDir : String) : WF (initSession query workingDir) := by
  constructor
  · rfl
  · simp [initSession]
  · intro m hm
    simp [initSession] at hm
  · intro m hm
    simp [initSession] at hm

theorem WF_setSys {s : Session} (h : WF s) (n : Nat) :
    WF (setSystemPromptTokens s n) := by
  constructor
  · exact h.total_eq
  · exact h.keys_nodup
  · exact h.keys_bounded
  · exact h.storage_of_uncompressed

/-- Every reachable session state is well-formed. -/
theorem reachable_wf {est : String → Nat} {cfg : BudgetConfig} {s : Session}
    (h : Reachable est cfg s) : WF s := by
  induction h with
  | init query workingDir => exact WF_init query workingDir
  | push p _ ih => exact WF_push ih
  | addMessage p _ ih => exact WF_addMessage ih
  | compress _ ih => exact WF_compress ih
  | discard n _ ih => exact WF_discard ih n
  | setSystemPromptTokens n _ ih => exact WF_setSys ih n

/-! ### Claim C1: the token-sum invariant -/

/-- C1: for every session and at every observable point between the
public ContextManager operations (after InitSession, AddMessage,
compress, discard, Recall, Save — the last two leave the state
unchanged), `totalTokens` equals the sum of the `tokens` fields of the
messages currently in the session. -/
theorem totalTokens_invariant (est : String → Nat) (cfg : BudgetConfig) {s : Session}
    (h : Reachable est cfg s) : s.totalTokens = msgTokenSum s.messages :=
  (reachable_wf h).total_eq

/-! ### Concrete run used by the witnesses -/

/-- Concrete executable token estimator for witnesses (the estimator is
an external-library parameter of the model). -/
def estLen : String → Nat := fun s => s.length

/-- Small context window so that a witness run actually compresses. -/
def cfgW : BudgetConfig :=
  { contextWindow := 300, reservedForSynthesis := 0, reservedForRecalls := 0,
    reservedForNextSteps := 0 }

/-- A 200-token read_file tool result. -/
def pBig : AddParams :=
  { role := Role.user, content := String.mk (List.replicate 200 'a'),
    metadata := some { toolName := some "read_file", source := some "f.ts" } }

/-- A small filler message. -/
def pSmall : AddParams := { role := Role.user, content := "01234567" }

/-- Session after adding the big tool result and four fillers: five
messages, 232 tokens used, below the 0.8 trigger but above the 0.6
target, with the big message just outside the protected tail. -/
def sW : Session :=
  (addMessage estLen cfgW ((addMessage estLen cfgW ((addMessage estLen cfgW
    ((addMessage estLen cfgW ((addMessage estLen cfgW
      (initSession "q" "wd") pBig).fst) pSmall).fst) pSmall).fst) pSmall).fst) pSmall).fst

theorem reachW : Reachable estLen cfgW sW :=
  Reachable.addMessage pSmall (Reachable.addMessage pSmall (Reachable.addMessage pSmall
    (Reachable.addMessage pSmall (Reachable.addMessage pBig
      (Reachable.init "q" "wd")))))

/-- The big message as it sits in `sW`. -/
def mW : ChatMessage :=
  { key := mkKey 0, role := Role.user, content := String.mk (List.replicate 200 'a'),
    tokens := 200, compressed := false,
    metadata := some { toolName := some "read_file", source := some "f.ts" } }

theorem totalTokens_invariant_witness : sW.totalTokens = msgTokenSum sW.messages :=
  totalTokens_invariant estLen cfgW reachW

/-! ### Claim C3: compression marks messages and recall restores them -/

theorem isPre_append_self : ∀ (p r : List Char), isPre p (p ++ r) = true := by
  intro p
  induction p with
  | nil => intro r; rfl
  | cons c cs ih => intro r; simp [isPre, ih]

theorem createCompressedContent_isPre (m : ChatMessage) :
    isPre "[COMPRESSED:".data (createCompressedContent m).data = true := by
  unfold createCompressedContent
  dsimp only
  split
  · simp only [String.data_append, List.append_assoc]
    exact isPre_append_self _ _
  · split
    · simp only [String.data_append, List.append_assoc]
      exact isPre_append_self _ _
    · simp only [String.data_append, List.append_assoc]
      exact isPre_append_self _ _

theorem mkKey_ne_blank (i : Nat) : mkKey i ≠ "" := by
  intro h
  have := congrArg String.data h
  simp [mkKey] at this

/-- Evaluation of `recall` on a compressed message whose original is in
storage. -/
theorem recall_compressed {s : Session} {k : String} {m : ChatMessage}
    {st : StoredMessage} (hk : k ≠ "")
    (hfind : findByKey s.messages k = some m) (hc : m.compressed = true)
    (hst : lookupStored s.storageMessages m.key = some st) :
    «recall» s k = { success := true, content := st.content, tokens := st.tokens,
                     source := st.metadata.bind (·.source) } := by
  unfold «recall»
  rw [if_neg hk, hfind]
  simp only [hc, Bool.not_true, Bool.false_eq_true, if_false]
  rw [hst]

/-- C3: a message the compression pass compressed keeps its key, gets a
`[COMPRESSED:` placeholder, records its pre-compression token count in
`originalTokens`, and a subsequent successful recall returns the original
pre-compression content verbatim with that token count. -/
theorem compress_recall_roundtrip {est : String → Nat} {cfg : BudgetConfig}
    {s : Session} {k : String} {m m' : ChatMessage}
    (hr : Reachable est cfg s)
    (hm : findByKey s.messages k = some m) (hmc : m.compressed = false)
    (hm' : findByKey (compress est cfg s).messages k = some m')
    (hm'c : m'.compressed = true) :
    m'.key = m.key ∧
    isPre "[COMPRESSED:".data m'.content.data = true ∧
    m'.originalTokens = some m.tokens ∧
    («recall» (compress est cfg s) k).success = true ∧
    («recall» (compress est cfg s) k).content = m.content ∧
    («recall» (compress est cfg s) k).tokens = m.tokens := by
  have h := reachable_wf hr
  obtain ⟨heq, hic, hstor⟩ := compress_change h hm hmc hm' hm'c
  have h3 := findByKey_some hm
  have h4 := findByKey_some hm'
  obtain ⟨st, hst, hstc, hstt⟩ := h.storage_of_uncompressed m h3.1 hmc hic
  have hkm : m'.key = m.key := h4.2.trans h3.2.symm
  have hkne : k ≠ "" := by
    obtain ⟨i, _, hmk⟩ := h.keys_bounded m h3.1
    rw [← h3.2, hmk]
    exact mkKey_ne_blank i
  have hst' : lookupStored (compress est cfg s).storageMessages m'.key = some st := by
    rw [hstor, hkm]
    exact hst
  have hrec := recall_compressed hkne hm' hm'c hst'
  refine ⟨hkm, ?_, ?_, ?_, ?_, ?_⟩
  · rw [heq]
    exact createCompressedContent_isPre m
  · rw [heq]
    rfl
  · rw [hrec]
  · rw [hrec]
    exact hstc
  · rw [hrec]
    exact hstt

set_option maxRecDepth 100000 in
set_option maxHeartbeats 2000000 in
theorem compress_recall_roundtrip_witness :
    (compressMsg estLen mW).key = mW.key ∧
    isPre "[COMPRESSED:".data (compressMsg estLen mW).content.data = true ∧
    (compressMsg estLen mW).originalTokens = some mW.tokens ∧
    («recall» (compress estLen cfgW sW) (mkKey 0)).success = true ∧
    («recall» (compress estLen cfgW sW) (mkKey 0)).content = mW.content ∧
    («recall» (compress estLen cfgW sW) (mkKey 0)).tokens = mW.tokens :=
  compress_recall_roundtrip reachW (by decide) (by decide) (by decide) (by decide)

/-! ### Claim C8: the protected recent tail -/

/-- C8: compression candidates are drawn only from the messages before
the protected tail; the protected tail (the `protectedRecentMessages`
most recent messages, or all of them when four or fewer exist) survives
both a compression pass and the eviction fallback unchanged, as a suffix
of the resulting message list. -/
theorem protected_tail_preserved (est : String → Nat) (cfg : BudgetConfig)
    {s : Session} (hr : Reachable est cfg s) :
    (∀ c ∈ getCompressionCandidates s, c.messageKey ∈
      ((s.messages.take (s.messages.length - protectedRecentMessages)).map (·.key))) ∧
    List.IsSuffix (s.messages.drop (s.messages.length - protectedRecentMessages))
      (compress est cfg s).messages ∧
    (∀ n, List.IsSuffix (s.messages.drop (s.messages.length - protectedRecentMessages))
      (discardOldestMessages s n).messages) := by
  have h := reachable_wf hr
  refine ⟨?_, compress_tail_suffix h.keys_nodup, fun n => discard_suffix h.keys_nodup n⟩
  intro c hc
  obtain ⟨m₀, hm₀, _, hkey⟩ := candidates_key_mem hc
  exact hkey ▸ List.mem_map_of_mem (·.key) hm₀

theorem protected_tail_preserved_witness :
    List.IsSuffix (sW.messages.drop (sW.messages.length - protectedRecentMessages))
      (compress estLen cfgW sW).messages :=
  (protected_tail_preserved estLen cfgW reachW).2.1

/-! ### Claim C2: the compressibility predicate -/

/-- The claimed predicate, translated from the claim's wording: not
compressed, not explicitly opted out, and (tool result or long enough). -/
def isCompressibleClaim (m : ChatMessage) : Bool :=
  !m.compressed && !(m.metadata.bind (·.compressible) == some false) &&
    (optTruthy (m.metadata.bind (·.toolName)) || decide (minTokensToCompress ≤ m.tokens))

/-- A not-yet-compressed 100-token read_file tool result: compressible
per the claim, rejected by the code's early "too short" return. -/
def shortToolResult : ChatMessage :=
  { key := "msg_t", role := Role.user, content := "tool output", tokens := 100,
    compressed := false,
    metadata := some { toolName := some "read_file", source := none, compressible := none } }

theorem isCompressible_claim_counterexample :
    isCompressibleClaim shortToolResult = true ∧
    isCompressible shortToolResult = false := by decide

/-- The amended predicate: the "too short" check precedes the toolName
check, so short tool results are not compressible and the toolName
disjunct is subsumed. -/
def isCompressibleAmendedSpec (m : ChatMessage) : Bool :=
  !m.compressed && decide (minTokensToCompress ≤ m.tokens) &&
    !(m.metadata.bind (·.compressible) == some false)

/-- C2 (amended): a message is compressible iff it is not already
compressed, its token count is at least `minTokensToCompress` (200), and
it is not explicitly marked `compressible=false`; in particular a
not-yet-compressed tool-result message with fewer than 200 tokens is NOT
compressible. -/
theorem isCompressible_eq_amended (m : ChatMessage) :
    isCompressible m = isCompressibleAmendedSpec m := by
  unfold isCompressible isCompressibleAmendedSpec
  by_cases h1 : m.compressed
  · simp [h1]
  · by_cases h2 : m.tokens < minTokensToCompress
    · simp [h1, h2, show ¬(minTokensToCompress ≤ m.tokens) from Nat.not_le.mpr h2]
    · by_cases h3 : m.metadata.bind (·.compressible) == some false
      · simp [h1, h2, h3]
      · by_cases h4 : optTruthy (m.metadata.bind (·.toolName))
        · simp [h1, h2, h3, h4, show minTokensToCompress ≤ m.tokens from Nat.le_of_not_lt h2]
        · simp [h1, h2, h3, h4, show minTokensToCompress ≤ m.tokens from Nat.le_of_not_lt h2]

/-! ### Claim C9: the synthesis filter -/

/-- The per-message keep/drop rule of the amended claim: assistant
messages and user messages without (truthy) tool metadata are always
included; tool results are dropped when their content carries a failure
marker or their tool is `list_dir`/`ripgrep`, and otherwise included with
tool fields. -/
def synthKeepSpec (m : ChatMessage) : Option SynthesisMessage :=
  if m.role == Role.assistant then some (synthBasic m)
  else if !optTruthy (m.metadata.bind (·.toolName)) then some (synthBasic m)
  else if containsSub m.content "执行失败" || containsSub m.content "错误:" then none
  else if m.metadata.bind (·.toolName) == some "list_dir" then none
  else if m.metadata.bind (·.toolName) == some "ripgrep" then none
  else some (synthWithTool m)

/-- C9 (amended): the synthesis filter is exactly the order-preserving
`filterMap` of the per-message rule `synthKeepSpec`; in particular the
failure-marker drop applies only to tool results, not to assistant
messages or to the plain original query. -/
theorem getMessagesForSynthesis_eq_filterMap (msgs : List ChatMessage) :
    getMessagesForSynthesis msgs = msgs.filterMap synthKeepSpec := by
  induction msgs with
  | nil => rfl
  | cons m rest ih =>
    simp only [getMessagesForSynthesis, List.filterMap_cons, synthKeepSpec]
    by_cases h1 : (m.role == Role.assistant) = true
    · simp [h1, ih]
    · simp only [h1, Bool.false_eq_true, if_false]
      by_cases h2 : (!optTruthy (m.metadata.bind (·.toolName))) = true
      · simp [h2, ih]
      · simp only [h2, Bool.false_eq_true, if_false]
        by_cases h3 : (containsSub m.content "执行失败" || containsSub m.content "错误:") = true
        · simp [h3, ih]
        · simp only [h3, Bool.false_eq_true, if_false]
          by_cases h4 : (m.metadata.bind (·.toolName) == some "list_dir") = true
          · simp [h4, ih]
          · simp only [h4, Bool.false_eq_true, if_false]
            by_cases h5 : (m.metadata.bind (·.toolName) == some "ripgrep") = true
            · simp [h5, ih]
            · simp [h5, ih]

/-- Assistant message whose content contains the failure marker. -/
def pErr : AddParams := { role := Role.assistant, content := "错误: 测试" }

/-- One-message session holding that assistant message. -/
def sErr : Session :=
  (addMessage estLen DEFAULT_BUDGET_CONFIG (initSession "q" "wd") pErr).fst

theorem synthesis_filter_counterexample :
    containsSub "错误: 测试" "错误:" = true ∧
    getMessagesForSynthesis sErr.messages =
      [{ key := mkKey 0, role := Role.assistant, content := "错误: 测试",
         compressed := false }] := by decide

/-! ### ToolRegistry (`src/tools/registry.ts`) -/

/-- Tool surface relevant to registration (`Tool` of `src/tools/types.ts`
minus `execute` and `parameters`, which registration never inspects). -/
structure Tool where
  name : String
  description : String
  deriving DecidableEq, Repr

/-- `ToolRegistryConfig` (types.ts:73-77; `toolConfigs` is never read by
the registry). -/
structure ToolRegistryConfig where
  enabledTools : Option (List String) := none
  disabledTools : Option (List String) := none
  deriving DecidableEq, Repr

/-- JS `Map.set`: overwrite in place when present, else append. -/
def mapSetTool : List (String × Tool) → String → Tool → List (String × Tool)
  | [], k, v => [(k, v)]
  | (k', v') :: rest, k, v =>
    if k' = k then (k, v) :: rest else (k', v') :: mapSetTool rest k v

/-- JS `Map.get`. -/
def lookupTool : List (String × Tool) → String → Option Tool
  | [], _ => none
  | (k, v) :: rest, key => if k = key then some v else lookupTool rest key

/-- `ToolRegistry.register` (registry.ts:24-43): skip when the name is
disabled (`disabledTools?.includes`, undefined being falsy); skip when a
present, nonempty allowlist does not contain the name; otherwise set. -/
def registerTool (cfg : ToolRegistryConfig) (tools : List (String × Tool)) (t : Tool) :
    List (String × Tool) :=
  if (cfg.disabledTools.getD []).contains t.name then tools
  else if (match cfg.enabledTools with
           | some l => !l.isEmpty && !(l.contains t.name)
           | none => false) then tools
  else mapSetTool tools t.name t

theorem lookupTool_mapSet (tools : List (String × Tool)) (k : String) (v : Tool) :
    lookupTool (mapSetTool tools k v) k = some v := by
  induction tools with
  | nil => simp [mapSetTool, lookupTool]
  | cons e rest ih =>
    match e with
    | (k', v') =>
      simp only [mapSetTool]
      split
      · simp [lookupTool]
      · next hne => simp only [lookupTool, if_neg hne, ih]

/-- C10: `register(t)` adds `t` to the registry iff `t.name` is not
disabled and the allowlist is absent, empty, or contains `t.name`; an
empty `enabledTools` array is not an allowlist, and `disabledTools`
takes precedence when a name appears in both lists. -/
theorem registerTool_adds_iff (cfg : ToolRegistryConfig)
    (tools : List (String × Tool)) (t : Tool)
    (h : lookupTool tools t.name = none) :
    lookupTool (registerTool cfg tools t) t.name = some t ↔
      (t.name ∉ cfg.disabledTools.getD [] ∧
       (cfg.enabledTools = none ∨ cfg.enabledTools = some [] ∨
        ∃ l, cfg.enabledTools = some l ∧ t.name ∈ l)) := by
  unfold registerTool
  by_cases h1 : ((cfg.disabledTools.getD []).contains t.name) = true
  · rw [if_pos h1, h]
    constructor
    · intro hc
      cases hc
    · intro hc
      exact absurd (show t.name ∈ cfg.disabledTools.getD [] by simpa using h1) hc.1
  · rw [if_neg h1]
    have h1' : t.name ∉ cfg.disabledTools.getD [] := by
      intro hm
      exact h1 (by simpa using hm)
    cases he : cfg.enabledTools with
    | none =>
      simp only [Bool.false_eq_true, if_false]
      rw [lookupTool_mapSet]
      simp [h1']
    | some l =>
      by_cases h2 : (!l.isEmpty && !(l.contains t.name)) = true
      · rw [if_pos h2]
        rw [h]
        simp only [Bool.and_eq_true, Bool.not_eq_true'] at h2
        constructor
        · intro hc
          cases hc
        · rintro ⟨_, hor⟩
          rcases hor with hn | hn | ⟨l', hl', hmem⟩
          · simp at hn
          · injection hn with hn
            rw [hn] at h2
            simp at h2
          · injection hl' with hl'
            subst hl'
            have hct : l.contains t.name = true := by simpa using hmem
            rw [h2.2] at hct
            cases hct
      · rw [if_neg h2]
        rw [lookupTool_mapSet]
        simp only [Bool.and_eq_true, Bool.not_eq_true'] at h2
        constructor
        · intro _
          refine ⟨h1', ?_⟩
          by_cases hl : l = []
          · exact Or.inr (Or.inl (by rw [hl]))
          · refine Or.inr (Or.inr ⟨l, rfl, ?_⟩)
            have hne : l.isEmpty = false := by
              cases l
              · exact absurd rfl hl
              · rfl
            have : ¬(l.contains t.name = false) := by
              intro hcf
              exact h2 ⟨hne, hcf⟩
            have : l.contains t.name = true := by
              cases hx : l.contains t.name
              · exact absurd hx this
              · rfl
            simpa using this
        · intro _
          rfl

def cfgReg : ToolRegistryConfig := { enabledTools := some [], disabledTools := some ["x"] }

def tReg : Tool := { name := "ripgrep", description := "search" }

theorem registerTool_adds_iff_witness :
    lookupTool (registerTool cfgReg [] tReg) "ripgrep" = some tReg :=
  (registerTool_adds_iff cfgReg [] tReg (by decide)).mpr
    ⟨by decide, Or.inr (Or.inl rfl)⟩

/-! ### Investigator decisions and stuck detection
(`src/agent/types.ts`, `src/agent/investigator.ts`) -/

/-- `AgentDecision`.  Tool-call arguments travel as parsed JSON objects in
the source; the model carries their `JSON.stringify` serialization, which
is the only form any investigator comparison inspects. -/
inductive AgentDecision where
  | tool_call (name : String) (argumentsJson : String)
  | delegate (agent task : String)
  | done (result : String)
  | thinking (content : String)
  | invalid_tool_call (content : String) (detectedToolName : Option String)
  | requires_self_check (content : String)
  | hallucination_detected (content cleanedContent : String)
  deriving DecidableEq, Repr

/-- JS `l.slice(-t)`: the last `t` elements for `t ≥ 1`; for `t = 0`,
`slice(-0) = slice(0)` is the whole list. -/
def sliceFromEnd (t : Nat) (l : List AgentDecision) : List AgentDecision :=
  if t = 0 then l else l.drop (l.length - t)

/-- `InvestigatorAgent.isStuck` (investigator.ts:1141-1159).  The
`recentDecisions[0]` access would fault in JS when the list is empty and
`stuckThreshold = 0`; the model returns false on that unreachable
branch. -/
def isStuck (stuckThreshold : Nat) (decisions : List AgentDecision) : Bool :=
  if (sliceFromEnd stuckThreshold decisions).length < stuckThreshold then false
  else
    match sliceFromEnd stuckThreshold decisions with
    | [] => false
    | first :: _ =>
      match first with
      | .tool_call name args =>
        (sliceFromEnd stuckThreshold decisions).all fun d =>
          match d with
          | .tool_call n a => n == name && a == args
          | _ => false
      | _ => false

/-- C7: for any positive threshold, stuck detection triggers iff at least
`stuckThreshold` decisions exist and the last `stuckThreshold` of them
are all tool calls with one and the same name and identically serialized
arguments. -/
theorem isStuck_iff (t : Nat) (ds : List AgentDecision) (h : 1 ≤ t) :
    isStuck t ds = true ↔
      (t ≤ ds.length ∧ ∃ name args, ∀ d ∈ ds.drop (ds.length - t),
        d = AgentDecision.tool_call name args) := by
  have ht0 : t ≠ 0 := by omega
  have hslice : sliceFromEnd t ds = ds.drop (ds.length - t) := by
    unfold sliceFromEnd
    rw [if_neg ht0]
  unfold isStuck
  rw [hslice]
  by_cases hlen : t ≤ ds.length
  · have hrl : (ds.drop (ds.length - t)).length = t := by
      simp only [List.length_drop]
      omega
    rw [if_neg (by omega)]
    cases hrec : ds.drop (ds.length - t) with
    | nil =>
      rw [hrec] at hrl
      simp at hrl
      omega
    | cons first rest =>
      cases first with
      | tool_call name args =>
        constructor
        · intro hall
          refine ⟨hlen, name, args, ?_⟩
          intro d hd
          have hfd := List.all_eq_true.mp hall d hd
          match d with
          | .tool_call n a =>
            simp only [Bool.and_eq_true, beq_iff_eq] at hfd
            rw [hfd.1, hfd.2]
          | .delegate _ _ => cases hfd
          | .done _ => cases hfd
          | .thinking _ => cases hfd
          | .invalid_tool_call _ _ => cases hfd
          | .requires_self_check _ => cases hfd
          | .hallucination_detected _ _ => cases hfd
        · rintro ⟨_, n', a', hforall⟩
          have hf := hforall (AgentDecision.tool_call name args)
            (List.mem_cons_self _ _)
          injection hf with h1 h2
          subst h1
          subst h2
          apply List.all_eq_true.mpr
          intro d hd
          rw [hforall d hd]
          simp
      | delegate a b =>
        constructor
        · intro hc
          cases hc
        · rintro ⟨_, n', a', hforall⟩
          have hf := hforall (AgentDecision.delegate a b)
            (List.mem_cons_self _ _)
          exact AgentDecision.noConfusion hf
      | done r =>
        constructor
        · intro hc
          cases hc
        · rintro ⟨_, n', a', hforall⟩
          have hf := hforall (AgentDecision.done r)
            (List.mem_cons_self _ _)
          exact AgentDecision.noConfusion hf
      | thinking c =>
        constructor
        · intro hc
          cases hc
        · rintro ⟨_, n', a', hforall⟩
          have hf := hforall (AgentDecision.thinking c)
            (List.mem_cons_self _ _)
          exact AgentDecision.noConfusion hf
      | invalid_tool_call c d =>
        constructor
        · intro hc
          cases hc
        · rintro ⟨_, n', a', hforall⟩
          have hf := hforall (AgentDecision.invalid_tool_call c d)
            (List.mem_cons_self _ _)
          exact AgentDecision.noConfusion hf
      | requires_self_check c =>
        constructor
        · intro hc
          cases hc
        · rintro ⟨_, n', a', hforall⟩
          have hf := hforall (AgentDecision.requires_self_check c)
            (List.mem_cons_self _ _)
          exact AgentDecision.noConfusion hf
      | hallucination_detected c cc =>
        constructor
        · intro hc
          cases hc
        · rintro ⟨_, n', a', hforall⟩
          have hf := hforall (AgentDecision.hallucination_detected c cc)
            (List.mem_cons_self _ _)
          exact AgentDecision.noConfusion hf
  · have hdrop : ds.length - t = 0 := by omega
    rw [hdrop, List.drop_zero]
    rw [if_pos (by omega)]
    constructor
    · intro hc
      cases hc
    · rintro ⟨hle, _⟩
      omega

/-- Three identical read_file tool calls. -/
def stuckRun : List AgentDecision :=
  List.replicate 3 (AgentDecision.tool_call "read_file" "argsjson")

theorem isStuck_iff_witness : isStuck 3 stuckRun = true :=
  (isStuck_iff 3 stuckRun (by decide)).mpr
    ⟨by decide, "read_file", "argsjson", by decide⟩

/-! ### Hallucination patterns and the scrubber
(`InvestigatorAgent.HALLUCINATION_PATTERNS`, `cleanHallucinatedContent`,
investigator.ts:760-799) -/

/-- Index of the first suffix at which `p` fires (JS `match.index` for the
leftmost regex match of the patterns below, whose per-position matching
is deterministic). -/
def firstIdxP (p : List Char → Bool) : List Char → Option Nat
  | [] => if p [] then some 0 else none
  | c :: rest => if p (c :: rest) then some 0 else (firstIdxP p rest).map (· + 1)

/-- Pattern 2, `/工具\s*"[^"]+"\s*执行(成功|失败)/`, matched at the head of
the input.  `\s*` and `[^"]+` cannot cross their terminators, so greedy
runs are exact. -/
def p2At (cs : List Char) : Bool :=
  if isPre "工具".data cs then
    match (cs.drop 2).dropWhile jsWS with
    | '"' :: r2 =>
      if (r2.takeWhile (fun c => !(c == '"'))).isEmpty then false
      else
        match r2.drop (r2.takeWhile (fun c => !(c == '"'))).length with
        | '"' :: r3 =>
          isPre "执行成功".data (r3.dropWhile jsWS) ||
          isPre "执行失败".data (r3.dropWhile jsWS)
        | _ => false
    | _ => false
  else false

/-- Pattern 3, `/Tool\s*"[^"]+"\s*(executed|completed|failed)/i`, matched
at the head of an already lowercased input. -/
def p3At (cs : List Char) : Bool :=
  if isPre "tool".data cs then
    match (cs.drop 4).dropWhile jsWS with
    | '"' :: r2 =>
      if (r2.takeWhile (fun c => !(c == '"'))).isEmpty then false
      else
        match r2.drop (r2.takeWhile (fun c => !(c == '"'))).length with
        | '"' :: r3 =>
          isPre "executed".data (r3.dropWhile jsWS) ||
          isPre "completed".data (r3.dropWhile jsWS) ||
          isPre "failed".data (r3.dropWhile jsWS)
        | _ => false
    | _ => false
  else false

/-- Pattern 4 helper: `Lines:\s+\d+-\d+`. -/
def p4LinesTail (cs : List Char) : Bool :=
  if isPre "Lines:".data cs then
    match cs.drop 6 with
    | c :: r2 =>
      if jsWS c then
        if ((r2.dropWhile jsWS).takeWhile Char.isDigit).isEmpty then false
        else
          match (r2.dropWhile jsWS).drop
              ((r2.dropWhile jsWS).takeWhile Char.isDigit).length with
          | '-' :: r5 => !((r5.takeWhile Char.isDigit).isEmpty)
          | _ => false
      else false
    | [] => false
  else false

/-- Pattern 4 helper: `[^\n]*` then the literal newline then the Lines
tail (the `[^\n]+` run necessarily ends at the first newline). -/
def p4AfterContent : List Char → Bool
  | [] => false
  | c :: r => if c == '\n' then p4LinesTail r else p4AfterContent r

/-- Pattern 4 helper: `[^\n]+\nLines:...`. -/
def p4ContentPart : List Char → Bool
  | [] => false
  | c :: rest => !(c == '\n') && p4AfterContent rest

/-- Pattern 4 helper: `\s+` then the content part; `\s` may include
newlines, so every split of the whitespace run is tried. -/
def p4WsPart : List Char → Bool
  | [] => false
  | c :: r => jsWS c && (p4ContentPart r || p4WsPart r)

/-- Pattern 4, `/^File:\s+[^\n]+\nLines:\s+\d+-\d+/m`, matched at the
head of the input (the `^` line anchor is handled by the scanner). -/
def p4At (cs : List Char) : Bool :=
  isPre "File:".data cs && p4WsPart (cs.drop 5)

/-- Scanner for pattern 4: a position qualifies when it is the start of
the string or preceded by a newline (the `m` flag's `^`). -/
def firstIdx4Go (atLineStart : Bool) (i : Nat) : List Char → Option Nat
  | [] => none
  | c :: r =>
    if atLineStart && p4At (c :: r) then some i
    else firstIdx4Go (c == '\n') (i + 1) r

/-- First-match index of `/<\/user>/`. -/
def firstIdx1 (cs : List Char) : Option Nat := firstIdxP (isPre "</user>".data) cs

/-- First-match index of pattern 2. -/
def firstIdx2 (cs : List Char) : Option Nat := firstIdxP p2At cs

/-- First-match index of pattern 3 (case-insensitive; lowercasing is
position-preserving). -/
def firstIdx3 (cs : List Char) : Option Nat := firstIdxP p3At (cs.map Char.toLower)

/-- First-match index of pattern 4. -/
def firstIdx4 (cs : List Char) : Option Nat := firstIdx4Go true 0 cs

/-- The first-match indices of the four hallucination patterns that
match at all (`patterns.some(p => p.test(content))` is equivalent to this
list being nonempty). -/
def hallucinationMatchIdxs (content : String) : List Nat :=
  [firstIdx1 content.data, firstIdx2 content.data,
   firstIdx3 content.data, firstIdx4 content.data].filterMap id

/-- `InvestigatorAgent.cleanHallucinatedContent` (investigator.ts:771-799):
return the input unchanged when no pattern fires; otherwise truncate at
the smallest first-match index and trim. -/
def cleanHallucinatedContent (content : String) : String × Bool :=
  if (hallucinationMatchIdxs content).isEmpty then (content, false)
  else
    (String.mk (jsTrim (content.data.take
      ((hallucinationMatchIdxs content).foldl min content.data.length))), true)

/-- Input on which the scrubber is not idempotent: the first pass cuts at
`</user>` and the trim exposes a line-start `File:/Lines:` header that
only the second pass matches. -/
def hallucinationCE : String := " File: a\nLines: 1-2</user>"

theorem cleanHallucinated_counterexample :
    (cleanHallucinatedContent (cleanHallucinatedContent hallucinationCE).fst).fst ≠
      (cleanHallucinatedContent hallucinationCE).fst := by decide

/-- C5 (amended): for every input containing none of the four
hallucination patterns the cleaner returns the text unchanged; but the
cleaner is NOT idempotent — applying it twice does not always yield the
same output as applying it once, because truncation plus trimming can
expose a line-start `File:/Lines:` header that only the second pass
matches. -/
theorem cleanHallucinated_amended :
    (∀ s : String, hallucinationMatchIdxs s = [] →
      cleanHallucinatedContent s = (s, false)) ∧
    ¬ (∀ s : String,
        (cleanHallucinatedContent (cleanHallucinatedContent s).fst).fst =
          (cleanHallucinatedContent s).fst) := by
  constructor
  · intro s hs
    simp [cleanHallucinatedContent, hs]
  · intro h
    exact absurd (h hallucinationCE) (by decide)

theorem cleanHallucinated_amended_witness :
    hallucinationMatchIdxs "hello" = [] ∧
    cleanHallucinatedContent "hello" = ("hello", false) :=
  ⟨by decide, cleanHallucinated_amended.1 "hello" (by decide)⟩

/-! ### Tool-call rescue from free text
(`rescueToolCallFromContent`, `tryFixJson`, investigator.ts:902-955).
`JSON.parse` is an external runtime facility: it is abstracted as a
parameter `jsonParse : String → Option String` returning the canonical
serialization of the parsed arguments object on success. -/

/-- The apostrophe character (U+0027). -/
def apoChar : Char := Char.ofNat 39

/-- A parsed tool call (`ToolCall` of `src/llm/types.ts`); arguments are
carried in serialized form. -/
structure ToolCall where
  name : String
  argumentsJson : String
  deriving DecidableEq, Repr

/-- Case-insensitive prefix check against a lowercase pattern (the `i`
flag on ASCII letters). -/
def isPreCI : List Char → List Char → Bool
  | [], _ => true
  | _ :: _, [] => false
  | p :: ps, c :: cs => p == c.toLower && isPreCI ps cs

/-- Leftmost position at which a per-position matcher succeeds. -/
def scanOption {α : Type} (f : List Char → Option α) : List Char → Option α
  | [] => f []
  | c :: rest =>
    match f (c :: rest) with
    | some x => some x
    | none => scanOption f rest

/-- Index of the last occurrence of a character. -/
def lastIdxOf (ch : Char) : List Char → Option Nat
  | [] => none
  | c :: rest =>
    match lastIdxOf ch rest with
    | some j => some (j + 1)
    | none => if c == ch then some 0 else none

/-- Ascending indices of all occurrences of a character. -/
def idxsOf (ch : Char) : List Char → List Nat
  | [] => []
  | c :: rest => (if c == ch then [0] else []) ++ (idxsOf ch rest).map (· + 1)

/-- The greedy group `(\{[\s\S]*\})` on an input starting at its `{`:
everything up to the last `}`. -/
def extractBraceGroup (cs : List Char) : Option String :=
  match lastIdxOf '}' cs with
  | some j => if 1 ≤ j then some (String.mk (cs.take (j + 1))) else none
  | none => none

/-- `/我将使用\s*(\w+)\s*工具[：:]\s*(\{[\s\S]*\})/` matched at the head;
every quantifier run here is bounded by a terminator outside its class,
so greedy maximal runs are exact. -/
def zhRescueAt (cs : List Char) : Option (String × String) :=
  if isPre "我将使用".data cs then
    let r1 := (cs.drop 4).dropWhile jsWS
    let w := r1.takeWhile isWordChar
    if w.isEmpty then none
    else
      let r2 := (r1.drop w.length).dropWhile jsWS
      if isPre "工具".data r2 then
        match r2.drop 2 with
        | c :: r3 =>
          if c == '：' || c == ':' then
            let r4 := r3.dropWhile jsWS
            match r4 with
            | '{' :: _ => (extractBraceGroup r4).map (fun g => (String.mk w, g))
            | _ => none
          else none
        | [] => none
      else none
  else none

/-- `I('ll| will) use ` in lowercase: the two alternative prefixes. -/
def illUseChars : List Char := 'i' :: apoChar :: "ll use ".data

/-- Tail `(\w+) tool[：:]?\s*(\{[\s\S]*\})` of the English rescue
pattern, case-insensitive on the literals. -/
def enRescueTail (r : List Char) : Option (String × String) :=
  let w := r.takeWhile isWordChar
  if w.isEmpty then none
  else
    let r2 := r.drop w.length
    if isPreCI " tool".data r2 then
      let r3 := r2.drop 5
      let r4 := match r3 with
        | c :: rr => if c == '：' || c == ':' then rr else r3
        | [] => r3
      let r5 := r4.dropWhile jsWS
      match r5 with
      | '{' :: _ => (extractBraceGroup r5).map (fun g => (String.mk w, g))
      | _ => none
    else none

/-- `/I(?:'ll| will) use (?:the )?(\w+) tool[：:]?\s*(\{[\s\S]*\})/i`
matched at the head; the optional `the ` is tried greedily first. -/
def enRescueAt (cs : List Char) : Option (String × String) :=
  match (if isPreCI illUseChars cs then some (cs.drop 9)
         else if isPreCI "i will use ".data cs then some (cs.drop 11)
         else none) with
  | some r =>
    if isPreCI "the ".data r then
      match enRescueTail (r.drop 4) with
      | some x => some x
      | none => enRescueTail r
    else enRescueTail r
  | none => none

/-- Suffixes reachable by the same-line `.*`, most-consumed first
(greedy, cannot cross a newline). -/
def lineSegSplits (cs : List Char) : List (List Char) :=
  (List.range ((cs.takeWhile (fun c => !(c == '\n'))).length + 1)).reverse.map
    (fun i => cs.drop i)

/-- After `` ```(?:json)? ``: `\s*` then the lazy `(\{[\s\S]*?\})` —
successive closing braces tried nearest-first — then `` \s*``` ``. -/
def cbAfterJson (r : List Char) : Option String :=
  match r.dropWhile jsWS with
  | '{' :: r2tail =>
    firstSome ((idxsOf '}' ('{' :: r2tail)).map (fun j =>
      if 1 ≤ j then
        if isPre "```".data ((('{' :: r2tail).drop (j + 1)).dropWhile jsWS) then
          some (String.mk (('{' :: r2tail).take (j + 1)))
        else none
      else none))
  | _ => none

/-- At a `` ``` `` occurrence: the optional `json` is tried greedily
first. -/
def cbAtTicks (r : List Char) : Option String :=
  if isPre "```".data r then
    match (if isPre "json".data (r.drop 3) then cbAfterJson (r.drop 7) else none) with
    | some g => some g
    | none => cbAfterJson (r.drop 3)
  else none

/-- `/(\w+).*```(?:json)?\s*(\{[\s\S]*?\})\s*```/` matched at the head:
the greedy `(\w+)` tries longest first, the greedy `.*` tries the
farthest same-line backtick fence first. -/
def cbMatchAt (cs : List Char) : Option (String × String) :=
  let w := cs.takeWhile isWordChar
  if w.isEmpty then none
  else
    firstSome ((List.range w.length).map (fun d =>
      match firstSome ((lineSegSplits (cs.drop (w.length - d))).map cbAtTicks) with
      | some g => some (String.mk (cs.take (w.length - d)), g)
      | none => none))

/-! ### The JSON repair pass of `tryFixJson` (investigator.ts:934-955) -/

/-- `.replace(/,\s*([}\])])/g, '$1')`: drop a comma standing before a
closing bracket; `buf` holds the pending whitespace (reversed) after a
candidate comma. -/
def stripTCGo : Option (List Char) → List Char → List Char
  | none, [] => []
  | some buf, [] => ',' :: buf.reverse
  | none, c :: r =>
    if c == ',' then stripTCGo (some []) r
    else c :: stripTCGo none r
  | some buf, c :: r =>
    if c == '}' || c == ']' then c :: stripTCGo none r
    else if jsWS c then stripTCGo (some (c :: buf)) r
    else if c == ',' then (',' :: buf.reverse) ++ stripTCGo (some []) r
    else (',' :: buf.reverse) ++ (c :: stripTCGo none r)

def stripTrailingCommas (cs : List Char) : List Char := stripTCGo none cs

mutual

/-- `.replace(/(\{|,)\s*(\w+)\s*:/g, '$1"$2":')`, as a left-to-right
scanner; a match attempt can only start at `{` or `,`, and neither the
matched span nor a failed attempt's span can contain another opener. -/
def qkGo : List Char → List Char
  | [] => []
  | c :: r => if c == '{' || c == ',' then c :: qkA [] r else c :: qkGo r

/-- After an opener: collecting `\s*` (reversed in `ws1`). -/
def qkA (ws1 : List Char) : List Char → List Char
  | [] => ws1.reverse
  | c :: r =>
    if jsWS c then qkA (c :: ws1) r
    else if isWordChar c then qkB ws1 [c] r
    else if c == '{' || c == ',' then ws1.reverse ++ (c :: qkA [] r)
    else ws1.reverse ++ (c :: qkGo r)

/-- Collecting `(\w+)` (reversed in `word`). -/
def qkB (ws1 word : List Char) : List Char → List Char
  | [] => ws1.reverse ++ word.reverse
  | c :: r =>
    if isWordChar c then qkB ws1 (c :: word) r
    else if c == ':' then '"' :: (word.reverse ++ ('"' :: ':' :: qkGo r))
    else if jsWS c then qkC ws1 word [c] r
    else if c == '{' || c == ',' then ws1.reverse ++ word.reverse ++ (c :: qkA [] r)
    else ws1.reverse ++ word.reverse ++ (c :: qkGo r)

/-- Collecting the `\s*` after the word. -/
def qkC (ws1 word ws2 : List Char) : List Char → List Char
  | [] => ws1.reverse ++ word.reverse ++ ws2.reverse
  | c :: r =>
    if jsWS c then qkC ws1 word (c :: ws2) r
    else if c == ':' then '"' :: (word.reverse ++ ('"' :: ':' :: qkGo r))
    else if c == '{' || c == ',' then
      ws1.reverse ++ word.reverse ++ ws2.reverse ++ (c :: qkA [] r)
    else ws1.reverse ++ word.reverse ++ ws2.reverse ++ (c :: qkGo r)

end

def quoteKeys (cs : List Char) : List Char := qkGo cs

/-- `.replace(/：/g, ':')`. -/
def mapFullwidthColon (cs : List Char) : List Char :=
  cs.map fun c => if c == '：' then ':' else c

/-- `.replace(/\}[\s\S]*$/, '}')`: keep everything up to and including
the first `}`. -/
def truncAfterBrace : List Char → List Char
  | [] => []
  | c :: rest => if c == '}' then ['}'] else c :: truncAfterBrace rest

/-- The fallback `fixed.match(/\{[\s\S]*\}/)`: from the first `{` to the
last `}`, when the latter comes after the former. -/
def firstBraceMatch (cs : List Char) : Option String :=
  match lastIdxOf '}' cs with
  | none => none
  | some j =>
    match firstIdxP (fun r => match r with | c :: _ => c == '{' | [] => false) cs with
    | some i => if i < j then some (String.mk ((cs.drop i).take (j - i + 1))) else none
    | none => none

/-- `InvestigatorAgent.tryFixJson` (investigator.ts:934-955) around the
abstract `jsonParse`. -/
def tryFixJson (jsonParse : String → Option String) (malformed : String) :
    Option String :=
  let fixed := String.mk (truncAfterBrace (mapFullwidthColon (quoteKeys
    (stripTrailingCommas (malformed.data.map
      (fun c => if c == apoChar then '"' else c))))))
  match jsonParse fixed with
  | some v => some v
  | none =>
    match firstBraceMatch fixed.data with
    | some sub => jsonParse sub
    | none => none

/-- One rescue attempt: a regex match feeds `tryFixJson`; a parse failure
falls through to the next pattern (the `for` loop continues). -/
def rescueAttempt (jsonParse : String → Option String)
    (m : Option (String × String)) : Option ToolCall :=
  match m with
  | some (n, a) => (tryFixJson jsonParse a).map (fun j => ⟨n, j⟩)
  | none => none

/-- `InvestigatorAgent.rescueToolCallFromContent` (investigator.ts:902-929). -/
def rescueToolCallFromContent (jsonParse : String → Option String)
    (content : String) : Option ToolCall :=
  match rescueAttempt jsonParse (scanOption zhRescueAt content.data) with
  | some tc => some tc
  | none =>
    match rescueAttempt jsonParse (scanOption enRescueAt content.data) with
    | some tc => some tc
    | none => rescueAttempt jsonParse (scanOption cbMatchAt content.data)

/-! ### Text-based tool-call and thinking heuristics
(investigator.ts:857-890) -/

/-- `/我将使用\s*(\w+)\s*工具/` or `/使用\s*(\w+)\s*工具/` matched at the
head, parameterized by the literal lead. -/
def zhTextToolAt (lead : List Char) (cs : List Char) : Option String :=
  if isPre lead cs then
    let r1 := (cs.drop lead.length).dropWhile jsWS
    let w := r1.takeWhile isWordChar
    if w.isEmpty then none
    else if isPre "工具".data ((r1.drop w.length).dropWhile jsWS) then
      some (String.mk w)
    else none
  else none

/-- Tail `(\w+) tool` of the English text pattern. -/
def enTextToolTail (r : List Char) : Option String :=
  let w := r.takeWhile isWordChar
  if w.isEmpty then none
  else if isPreCI " tool".data (r.drop w.length) then some (String.mk w)
  else none

/-- `/I(?:'ll| will) use (?:the )?(\w+) tool/i` matched at the head. -/
def enTextToolAt (cs : List Char) : Option String :=
  match (if isPreCI illUseChars cs then some (cs.drop 9)
         else if isPreCI "i will use ".data cs then some (cs.drop 11)
         else none) with
  | some r =>
    if isPreCI "the ".data r then
      match enTextToolTail (r.drop 4) with
      | some w => some w
      | none => enTextToolTail r
    else enTextToolTail r
  | none => none

/-- The text-tool-call patterns in source order, returning the captured
tool name of the first pattern that matches anywhere. -/
def textToolCallMatch (content : String) : Option String :=
  match scanOption (zhTextToolAt "我将使用".data) content.data with
  | some n => some n
  | none =>
    match scanOption enTextToolAt content.data with
    | some n => some n
    | none => scanOption (zhTextToolAt "使用".data) content.data

/-- The thinking regexes are concatenations of literal alternatives, so
they expand into substring lists; the English ones are case-insensitive. -/
def thinkVerbsEn1 : List String :=
  ["check", "look", "search", "find", "read", "examine", "analyze"]

def thinkVerbsEn2 : List String :=
  ["use", "check", "look", "search", "find", "read", "analyze"]

def thinkVerbsZh : List String := ["查看", "检查", "搜索", "查找", "读取", "分析"]

def thinkingSubstringsEn : List String :=
  thinkVerbsEn1.map (fun v => "let me " ++ v) ++
  ([String.mk [apoChar] ++ "ll", " will", " should", " need to"].flatMap
    (fun a => thinkVerbsEn2.map (fun v => "i" ++ a ++ " " ++ v)))

def thinkingSubstringsZh : List String :=
  thinkVerbsZh.map (fun v => "需要" ++ v) ++
  thinkVerbsZh.map (fun v => "让我" ++ v) ++
  (["来", "需要", "应该"].flatMap (fun m => thinkVerbsZh.map (fun v => "我" ++ m ++ v)))

/-- `thinkingPatterns.some(p => p.test(content))` (investigator.ts:876-884). -/
def isThinkingContent (content : String) : Bool :=
  thinkingSubstringsEn.any
    (fun p => containsSub (String.mk (content.data.map Char.toLower)) p) ||
  thinkingSubstringsZh.any (fun p => containsSub content p)

/-! ### Decision parsing (`InvestigatorAgent.parseDecision`,
investigator.ts:804-897) -/

/-- The most recent tool-call decision
(`decisions.filter(d => d.type === 'tool_call').pop()`). -/
def lastToolCallDecision (decisions : List AgentDecision) : Option AgentDecision :=
  (decisions.filter fun d => match d with
    | .tool_call _ _ => true
    | _ => false).getLast?

/-- `InvestigatorAgent.parseDecision`: structured tool calls, then the
text rescue, then the hallucination scrub, then the completion sentinel
with the think-gate, then text tool-call phrases, then thinking
heuristics, and `done` as the defensive default. -/
def parseDecision (jsonParse : String → Option String)
    (decisions : List AgentDecision) (content : String)
    (toolCalls : List ToolCall) : AgentDecision :=
  match toolCalls with
  | tc :: _ => .tool_call tc.name tc.argumentsJson
  | [] =>
    match rescueToolCallFromContent jsonParse content with
    | some tc => .tool_call tc.name tc.argumentsJson
    | none =>
      if (cleanHallucinatedContent content).snd then
        .hallucination_detected content (cleanHallucinatedContent content).fst
      else if containsSub content "[INVESTIGATION_COMPLETE]" then
        match lastToolCallDecision decisions with
        | some (.tool_call n _) =>
          if n = "think" then .done content else .requires_self_check content
        | _ => .requires_self_check content
      else
        match textToolCallMatch content with
        | some name => .invalid_tool_call content (some name)
        | none =>
          if isThinkingContent content then .thinking content
          else .done content

/-! ### Claim C4: the self-check gate -/

/-- C4: when a response carries no structured tool call, no rescuable
textual tool call and no hallucination pattern, but contains the
`[INVESTIGATION_COMPLETE]` sentinel, decision parsing emits `done` with
the full content iff the most recent tool-call decision in the history
is a `think` call; otherwise — including an empty history — it emits
`requires_self_check` with the content. -/
theorem parseDecision_selfCheck_gate (jsonParse : String → Option String)
    (decisions : List AgentDecision) (content : String)
    (hres : rescueToolCallFromContent jsonParse content = none)
    (hhal : (cleanHallucinatedContent content).snd = false)
    (hsent : containsSub content "[INVESTIGATION_COMPLETE]" = true) :
    (parseDecision jsonParse decisions content [] = AgentDecision.done content ↔
      ∃ args, lastToolCallDecision decisions =
        some (AgentDecision.tool_call "think" args)) ∧
    (parseDecision jsonParse decisions content [] = AgentDecision.done content ∨
     parseDecision jsonParse decisions content [] =
       AgentDecision.requires_self_check content) := by
  have hstep : parseDecision jsonParse decisions content [] =
      (match lastToolCallDecision decisions with
       | some (.tool_call n _) =>
         if n = "think" then AgentDecision.done content
         else AgentDecision.requires_self_check content
       | _ => AgentDecision.requires_self_check content) := by
    unfold parseDecision
    rw [hres]
    rw [hhal]
    simp only [Bool.false_eq_true, if_false, hsent, if_true]
  rw [hstep]
  cases hl : lastToolCallDecision decisions with
  | none =>
    constructor
    · constructor
      · intro hc
        exact absurd hc (by simp)
      · rintro ⟨args, habs⟩
        cases habs
    · exact Or.inr rfl
  | some d =>
    cases d with
    | tool_call n a =>
      dsimp only
      by_cases hn : n = "think"
      · subst hn
        constructor
        · constructor
          · intro _
            exact ⟨a, rfl⟩
          · intro _
            simp
        · simp
      · constructor
        · constructor
          · intro hc
            rw [if_neg hn] at hc
            exact absurd hc (by simp)
          · rintro ⟨args, habs⟩
            injection habs with habs'
            injection habs' with h1 h2
            exact absurd h1 hn
        · rw [if_neg hn]
          exact Or.inr rfl
    | delegate a b =>
      refine ⟨⟨fun hc => absurd hc (by simp), ?_⟩, Or.inr rfl⟩
      rintro ⟨args, habs⟩
      cases habs
    | done r =>
      refine ⟨⟨fun hc => absurd hc (by simp), ?_⟩, Or.inr rfl⟩
      rintro ⟨args, habs⟩
      cases habs
    | thinking c =>
      refine ⟨⟨fun hc => absurd hc (by simp), ?_⟩, Or.inr rfl⟩
      rintro ⟨args, habs⟩
      cases habs
    | invalid_tool_call c d =>
      refine ⟨⟨fun hc => absurd hc (by simp), ?_⟩, Or.inr rfl⟩
      rintro ⟨args, habs⟩
      cases habs
    | requires_self_check c =>
      refine ⟨⟨fun hc => absurd hc (by simp), ?_⟩, Or.inr rfl⟩
      rintro ⟨args, habs⟩
      cases habs
    | hallucination_detected c cc =>
      refine ⟨⟨fun hc => absurd hc (by simp), ?_⟩, Or.inr rfl⟩
      rintro ⟨args, habs⟩
      cases habs

/-- A completion response and a history whose last tool call is `think`. -/
def selfCheckContent : String := "[INVESTIGATION_COMPLETE] findings"

def selfCheckHistory : List AgentDecision := [AgentDecision.tool_call "think" "thought"]

theorem parseDecision_selfCheck_gate_witness :
    parseDecision (fun _ => none) selfCheckHistory selfCheckContent [] =
      AgentDecision.done selfCheckContent :=
  ((parseDecision_selfCheck_gate (fun _ => none) selfCheckHistory selfCheckContent
      (by decide) (by decide) (by decide)).1).mpr ⟨"thought", by decide⟩

/-! ### Run control flow (`InvestigatorAgent.investigate`,
investigator.ts:356-491; `Orchestrator.run` and `abort`,
orchestrator.ts:156-353).

The loop body (LLM call, decision parse, tool execution, context
updates) is collapsed into an oracle `Nat → Except String AgentDecision`
giving each iteration's parsed decision or the exception it throws; the
cancellation signal is a predicate on the loop-head check index, and
`partialFindings` stands for `gatherPartialFindings()` over the
conversation.  Only the control flow — which the claim is about — is
modelled; the returned `success`, `error` and `iterations` fields follow
the source exactly. -/

/-- `InvestigatorAgent.extractFindings` (investigator.ts:714-722). -/
def extractFindings (content : String) : String :=
  match firstIdxP (isPre "[INVESTIGATION_COMPLETE]".data) content.data with
  | some i => String.mk (jsTrim (content.data.drop
      (i + "[INVESTIGATION_COMPLETE]".data.length)))
  | none => content

/-- The `InvestigationResult` fields claim C6 inspects. -/
structure InvestigationOutcome where
  success : Bool
  findings : String
  iterations : Nat
  error : Option String := none
  deriving DecidableEq, Repr

/-- The `while` loop of `investigate`: `remaining` counts the loop
iterations still allowed (`maxIterations - iteration`), giving structural
termination.  An aborted check breaks to the max-iterations exit
(success with partial findings); a thrown error is caught by the
surrounding `try` and returned as a failed result; a `done` decision
returns success with the extracted findings; every other decision —
including stuck handling, which only posts feedback and trims history —
continues the loop. -/
def investigateGo (aborted : Nat → Bool)
    (oracle : Nat → Except String AgentDecision) (partialFindings : String) :
    Nat → Nat → InvestigationOutcome
  | iteration, 0 =>
    { success := true, findings := partialFindings, iterations := iteration }
  | iteration, remaining + 1 =>
    if aborted iteration then
      { success := true, findings := partialFindings, iterations := iteration }
    else
      match oracle iteration with
      | Except.error e =>
        { success := false, findings := "", iterations := iteration + 1,
          error := some e }
      | Except.ok (AgentDecision.done r) =>
        { success := true, findings := extractFindings r, iterations := iteration + 1 }
      | Except.ok _ =>
        investigateGo aborted oracle partialFindings (iteration + 1) remaining

/-- `InvestigatorAgent.investigate` run from a fresh state. -/
def investigate (maxIterations : Nat) (aborted : Nat → Bool)
    (oracle : Nat → Except String AgentDecision) (partialFindings : String) :
    InvestigationOutcome :=
  investigateGo aborted oracle partialFindings 0 maxIterations

/-- The `AgentRunResult` fields claim C6 inspects. -/
structure OrchestratorOutcome where
  success : Bool
  result : String
  error : Option String := none
  deriving DecidableEq, Repr

/-- `Orchestrator.run` result plumbing (orchestrator.ts:190-345): a
failed investigation propagates its error; then the `this.aborted` flag
— set by `Orchestrator.abort()`, separate from the investigator's signal
— is checked once; a failed synthesis (`synthesis = none`) still returns
success with the raw findings; otherwise the report is returned.  The
surrounding `try` turns any escaped exception into a failed result, so
no exception escapes `run`. -/
def orchestratorRun (inv : InvestigationOutcome) (abortedFlag : Bool)
    (synthesis : Option String) : OrchestratorOutcome :=
  if inv.success = false then { success := false, result := "", error := inv.error }
  else if abortedFlag then { success := false, result := "", error := some "Aborted" }
  else
    match synthesis with
    | none => { success := true, result := inv.findings }
    | some report => { success := true, result := report }

theorem investigateGo_success_unless_error
    (ab : Nat → Bool) (oracle : Nat → Except String AgentDecision) (pf : String) :
    ∀ (remaining iteration : Nat),
      (investigateGo ab oracle pf iteration remaining).success = false →
      ∃ i e, oracle i = Except.error e := by
  intro remaining
  induction remaining with
  | zero =>
    intro iteration h
    cases h
  | succ remaining ih =>
    intro iteration h
    simp only [investigateGo] at h
    split at h
    · cases h
    · cases horacle : oracle iteration with
      | error e => exact ⟨iteration, e, horacle⟩
      | ok d =>
        rw [horacle] at h
        cases d with
        | done r => cases h
        | tool_call n a => exact ih (iteration + 1) h
        | delegate a b => exact ih (iteration + 1) h
        | thinking c => exact ih (iteration + 1) h
        | invalid_tool_call c dt => exact ih (iteration + 1) h
        | requires_self_check c => exact ih (iteration + 1) h
        | hallucination_detected c cc => exact ih (iteration + 1) h

/-- An investigator run whose abort signal is set before the first
loop-head check: it exits immediately — zero iterations — yet reports
`success = true`, refuting the claim that cancellation yields a result
with `success = false`. -/
theorem abort_success_counterexample :
    (investigate 20 (fun _ => true)
      (fun _ => Except.ok (AgentDecision.thinking "x")) "partial").success = true ∧
    (investigate 20 (fun _ => true)
      (fun _ => Except.ok (AgentDecision.thinking "x")) "partial").iterations = 0 := by
  decide

/-- C6 (amended): (1) an abort observed at the loop head makes the
investigator exit early with `success = true` and the partial findings —
not `success = false`; (2) an investigator run can only report
`success = false` when an iteration threw; (3) the Orchestrator returns
`success = false` with error `"Aborted"` exactly when its abort flag is
set by the time of its post-investigation check (and a successful
investigation preceded); no exception escapes either run, both being
wrapped in result-returning catches. -/
theorem abort_amended :
    (∀ (max : Nat) (ab : Nat → Bool) (oracle : Nat → Except String AgentDecision)
       (pf : String), 0 < max → ab 0 = true →
       investigate max ab oracle pf =
         { success := true, findings := pf, iterations := 0, error := none }) ∧
    (∀ (max : Nat) (ab : Nat → Bool) (oracle : Nat → Except String AgentDecision)
       (pf : String), (investigate max ab oracle pf).success = false →
       ∃ i e, oracle i = Except.error e) ∧
    (∀ (inv : InvestigationOutcome) (synthesis : Option String),
       inv.success = true →
       orchestratorRun inv true synthesis =
         { success := false, result := "", error := some "Aborted" }) := by
  refine ⟨?_, ?_, ?_⟩
  · intro max ab oracle pf hmax hab
    unfold investigate
    match max, hmax with
    | max + 1, _ =>
      simp only [investigateGo, hab, if_true]
  · intro max ab oracle pf h
    exact investigateGo_success_unless_error ab oracle pf max 0 h
  · intro inv synthesis h
    unfold orchestratorRun
    rw [h]
    simp

theorem abort_amended_witness :
    orchestratorRun { success := true, findings := "f", iterations := 1 } true
      (some "report") =
      { success := false, result := "", error := some "Aborted" } :=
  abort_amended.2.2 { success := true, findings := "f", iterations := 1 }
    (some "report") (by decide)

end Chibi
